import Mathlib

/-!
Verification development for the transaction-processing core:
the chronicle DAG ledger (strict and rolling variants), the consistent-hash
shard router, and the proof-of-intelligence consensus scorer.

The definitions below are a shallow embedding of the Python sources:
  src/chronicle/graph_store.py, src/fabric/routing.py, src/consensus/poi.py.
Machine integers are modelled as Nat with explicit reduction mod 2^32 where
the source relies on 32-bit overflow; Python dicts are association lists
with unique keys; Python sets are duplicate-free lists; the bloom filter
bytearray is modelled as the set of bit indices that are 1 (byte i, bit j
of the source corresponds to index 8*i+j here, and the source sets exactly
index h for each derived hash h); Python floats in the scorer are modelled
as exact rationals together with a 6-decimal half-even rendering.
-/

set_option maxRecDepth 100000
set_option maxHeartbeats 4000000

/-! ## Generic helpers: 32-bit arithmetic, byte serialization, UTF-8 -/

def u32 (x : Nat) : Nat := x % 4294967296

def add32 (a b : Nat) : Nat := (a + b) % 4294967296

def xor32 (a b : Nat) : Nat := Nat.xor a b

def rotr (x n : Nat) : Nat := Nat.lor (x >>> n) (u32 (x <<< (32 - n)))

def leBytesToNat (l : List Nat) : Nat := l.foldr (fun b acc => b + 256 * acc) 0

def beBytesToNat (l : List Nat) : Nat := l.foldl (fun acc b => acc * 256 + b) 0

def natToLeBytes (n x : Nat) : List Nat := (List.range n).map (fun i => (x >>> (8 * i)) % 256)

def natToBeBytes (n x : Nat) : List Nat :=
  (List.range n).map (fun i => (x >>> (8 * (n - 1 - i))) % 256)

def getv (l : List Nat) (i : Nat) : Nat := l.getD i 0

def setv (l : List Nat) (i : Nat) (x : Nat) : List Nat := l.set i x

def charUtf8 (c : Char) : List Nat :=
  let n := c.toNat
  if n < 128 then [n]
  else if n < 2048 then [192 + n / 64, 128 + n % 64]
  else if n < 65536 then [224 + n / 4096, 128 + (n / 64) % 64, 128 + n % 64]
  else [240 + n / 262144, 128 + (n / 4096) % 64, 128 + (n / 64) % 64, 128 + n % 64]

def strBytes (s : String) : List Nat := s.data.flatMap charUtf8

/-! ## Association lists with unique keys (model of Python dict) and
duplicate-free lists (model of Python set) -/

def alookup {α β : Type} [DecidableEq α] : List (α × β) → α → Option β
  | [], _ => none
  | (k2, v) :: t, k => if k2 = k then some v else alookup t k

def alookupD {α β : Type} [DecidableEq α] (l : List (α × β)) (k : α) (d : β) : β :=
  (alookup l k).getD d

def aset {α β : Type} [DecidableEq α] : List (α × β) → α → β → List (α × β)
  | [], k, v => [(k, v)]
  | (k2, v2) :: t, k, v => if k2 = k then (k, v) :: t else (k2, v2) :: aset t k v

def apop {α β : Type} [DecidableEq α] : List (α × β) → α → List (α × β)
  | [], _ => []
  | (k2, v2) :: t, k => if k2 = k then t else (k2, v2) :: apop t k

def akeys {α β : Type} (l : List (α × β)) : List α := l.map Prod.fst

def sadd {α : Type} [DecidableEq α] (l : List α) (x : α) : List α :=
  if x ∈ l then l else l ++ [x]

def sdel {α : Type} [DecidableEq α] : List α → α → List α
  | [], _ => []
  | y :: t, x => if y = x then t else y :: sdel t x

/-! ## BLAKE2s (RFC 7693), unkeyed, variable digest length nn.
This is the hashlib.blake2s the source calls with digest_size 8, 12 and 4. -/

def b2sIV : List Nat :=
  [0x6A09E667, 0xBB67AE85, 0x3C6EF372, 0xA54FF53A,
   0x510E527F, 0x9B05688C, 0x1F83D9AB, 0x5BE0CD19]

def b2sSigma : List (List Nat) :=
  [[0,1,2,3,4,5,6,7,8,9,10,11,12,13,14,15],
   [14,10,4,8,9,15,13,6,1,12,0,2,11,7,5,3],
   [11,8,12,0,5,2,15,13,10,14,3,6,7,1,9,4],
   [7,9,3,1,13,12,11,14,2,6,5,10,4,0,15,8],
   [9,0,5,7,2,4,10,15,14,1,11,12,6,8,3,13],
   [2,12,6,10,0,11,8,3,4,13,7,5,15,14,1,9],
   [12,5,1,15,14,13,4,10,0,7,6,3,9,2,8,11],
   [13,11,7,14,12,1,3,9,5,0,15,4,8,6,2,10],
   [6,15,14,9,11,3,0,8,12,2,13,7,1,4,10,5],
   [10,2,8,4,7,6,1,5,15,11,9,14,3,12,13,0]]

def b2sG (v : List Nat) (a b c d x y : Nat) : List Nat :=
  let va := add32 (add32 (getv v a) (getv v b)) x
  let vd := rotr (xor32 (getv v d) va) 16
  let vc := add32 (getv v c) vd
  let vb := rotr (xor32 (getv v b) vc) 12
  let va2 := add32 (add32 va vb) y
  let vd2 := rotr (xor32 vd va2) 8
  let vc2 := add32 vc vd2
  let vb2 := rotr (xor32 vb vc2) 7
  setv (setv (setv (setv v a va2) b vb2) c vc2) d vd2

def b2sRound (m v s : List Nat) : List Nat :=
  let v1 := b2sG v 0 4 8 12 (getv m (getv s 0)) (getv m (getv s 1))
  let v2 := b2sG v1 1 5 9 13 (getv m (getv s 2)) (getv m (getv s 3))
  let v3 := b2sG v2 2 6 10 14 (getv m (getv s 4)) (getv m (getv s 5))
  let v4 := b2sG v3 3 7 11 15 (getv m (getv s 6)) (getv m (getv s 7))
  let v5 := b2sG v4 0 5 10 15 (getv m (getv s 8)) (getv m (getv s 9))
  let v6 := b2sG v5 1 6 11 12 (getv m (getv s 10)) (getv m (getv s 11))
  let v7 := b2sG v6 2 7 8 13 (getv m (getv s 12)) (getv m (getv s 13))
  b2sG v7 3 4 9 14 (getv m (getv s 14)) (getv m (getv s 15))

def bytesToWordsLE (block : List Nat) : List Nat :=
  (List.range 16).map (fun i => leBytesToNat ((block.drop (4 * i)).take 4))

def b2sCompress (h m : List Nat) (t : Nat) (f : Bool) : List Nat :=
  let v0 := h ++ b2sIV
  let v1 := setv v0 12 (xor32 (getv v0 12) (u32 t))
  let v2 := setv v1 13 (xor32 (getv v1 13) (u32 (t >>> 32)))
  let v3 := if f then setv v2 14 (xor32 (getv v2 14) 0xFFFFFFFF) else v2
  let vf := b2sSigma.foldl (fun v s => b2sRound m v s) v3
  (List.range 8).map (fun i => xor32 (getv h i) (xor32 (getv vf i) (getv vf (i + 8))))

def chunks64Aux : Nat → List Nat → List (List Nat)
  | 0, _ => []
  | _, [] => []
  | fuel + 1, l => l.take 64 :: chunks64Aux fuel (l.drop 64)

def chunks64 (l : List Nat) : List (List Nat) := chunks64Aux l.length l

def padBlock (b : List Nat) : List Nat := b ++ List.replicate (64 - b.length) 0

def b2sProc (h : List Nat) (blocks : List (List Nat)) (consumed ll : Nat) : List Nat :=
  match blocks with
  | [] => h
  | [b] => b2sCompress h (bytesToWordsLE (padBlock b)) ll true
  | b :: rest =>
    b2sProc (b2sCompress h (bytesToWordsLE b) (consumed + 64) false) rest (consumed + 64) ll

def blake2s (msg : List Nat) (nn : Nat) : List Nat :=
  let h0 := setv b2sIV 0 (xor32 (getv b2sIV 0) (Nat.xor 0x01010000 nn))
  let blocks := if msg.isEmpty then [List.replicate 64 0] else chunks64 msg
  ((b2sProc h0 blocks 0 msg.length).map (natToLeBytes 4)).flatten.take nn

/-! ## SHA-256, used by the shard router ring and the consensus proof -/

def shaK : List Nat :=
  [1116352408, 1899447441, 3049323471, 3921009573, 961987163, 1508970993, 2453635748, 2870763221,
   3624381080, 310598401, 607225278, 1426881987, 1925078388, 2162078206, 2614888103, 3248222580,
   3835390401, 4022224774, 264347078, 604807628, 770255983, 1249150122, 1555081692, 1996064986,
   2554220882, 2821834349, 2952996808, 3210313671, 3336571891, 3584528711, 113926993, 338241895,
   666307205, 773529912, 1294757372, 1396182291, 1695183700, 1986661051, 2177026350, 2456956037,
   2730485921, 2820302411, 3259730800, 3345764771, 3516065817, 3600352804, 4094571909, 275423344,
   430227734, 506948616, 659060556, 883997877, 958139571, 1322822218, 1537002063, 1747873779,
   1955562222, 2024104815, 2227730452, 2361852424, 2428436474, 2756734187, 3204031479, 3329325298]

def shaH0 : List Nat :=
  [1779033703, 3144134277, 1013904242, 2773480762, 1359893119, 2600822924, 528734635, 1541459225]

def shaS0 (x : Nat) : Nat := xor32 (rotr x 7) (xor32 (rotr x 18) (x >>> 3))

def shaS1 (x : Nat) : Nat := xor32 (rotr x 17) (xor32 (rotr x 19) (x >>> 10))

def shaE0 (x : Nat) : Nat := xor32 (rotr x 2) (xor32 (rotr x 13) (rotr x 22))

def shaE1 (x : Nat) : Nat := xor32 (rotr x 6) (xor32 (rotr x 11) (rotr x 25))

def shaCh (x y z : Nat) : Nat := xor32 (Nat.land x y) (Nat.land (Nat.xor x 0xFFFFFFFF) z)

def shaMaj (x y z : Nat) : Nat := xor32 (Nat.land x y) (xor32 (Nat.land x z) (Nat.land y z))

def bytesToWordsBE (block : List Nat) : List Nat :=
  (List.range 16).map (fun i => beBytesToNat ((block.drop (4 * i)).take 4))

def shaExtendAux : Nat → List Nat → List Nat
  | 0, w => w
  | fuel + 1, w =>
    let n := w.length
    shaExtendAux fuel
      (w ++ [add32 (add32 (shaS1 (getv w (n - 2))) (getv w (n - 7)))
             (add32 (shaS0 (getv w (n - 15))) (getv w (n - 16)))])

def shaRound (st : List Nat) (kw : Nat × Nat) : List Nat :=
  let t1 := add32 (add32 (add32 (getv st 7) (shaE1 (getv st 4)))
            (add32 (shaCh (getv st 4) (getv st 5) (getv st 6)) kw.1)) kw.2
  let t2 := add32 (shaE0 (getv st 0)) (shaMaj (getv st 0) (getv st 1) (getv st 2))
  [add32 t1 t2, getv st 0, getv st 1, getv st 2,
   add32 (getv st 3) t1, getv st 4, getv st 5, getv st 6]

def shaCompress (h : List Nat) (block : List Nat) : List Nat :=
  let w := shaExtendAux 48 (bytesToWordsBE block)
  let st := (shaK.zip w).foldl shaRound h
  List.zipWith add32 h st

def shaPad (msg : List Nat) : List Nat :=
  let r := (msg.length + 9) % 64
  msg ++ [0x80] ++ List.replicate ((64 - r) % 64) 0 ++ natToBeBytes 8 (8 * msg.length)

def sha256Bytes (msg : List Nat) : List Nat :=
  (((chunks64 (shaPad msg)).foldl shaCompress shaH0).map (natToBeBytes 4)).flatten

def bytesHex (l : List Nat) : String :=
  String.mk (l.flatMap (fun b =>
    [ (if b / 16 < 10 then Char.ofNat (48 + b / 16) else Char.ofNat (87 + b / 16)),
      (if b % 16 < 10 then Char.ofNat (48 + b % 16) else Char.ofNat (87 + b % 16)) ]))

def sha256Hex (s : String) : String := bytesHex (sha256Bytes (strBytes s))

/-- The router hashes a key with int(sha256(key).hexdigest(), 16); parsing the
hex digest back as a number is exactly the big-endian value of the digest. -/
def sha256Int (s : String) : Nat := beBytesToNat (sha256Bytes (strBytes s))

/-! ## Chronicle DAG ledger (src/chronicle/graph_store.py) -/

def ROOT_ANCHOR : String := "ROOT"

/-- tx_fingerprint: blake2s with digest_size 8, read big-endian as a uint64. -/
def tx_fingerprint (s : String) : Nat := beBytesToNat (blake2s (strBytes s) 8)

/-- Strict ledger state: _parents, _child_count and _tips of ChronicleStore. -/
structure ChronicleStore where
  parents : List (String × List String)
  child_count : List (String × Nat)
  tips : List String
  deriving DecidableEq, Repr

def ChronicleStore.init : ChronicleStore :=
  { parents := [(ROOT_ANCHOR, [])], child_count := [(ROOT_ANCHOR, 0)], tips := [ROOT_ANCHOR] }

def ChronicleStore.has (st : ChronicleStore) (tx : String) : Bool :=
  (alookup st.parents tx).isSome

def ChronicleStore.get_missing_parents (st : ChronicleStore) (ps : List String) : List String :=
  ps.filter (fun p => !(p == ROOT_ANCHOR) && (alookup st.parents p).isNone)

def ChronicleStore.add (st : ChronicleStore) (tx : String) (ps : List String) :
    (Bool × List String) × ChronicleStore :=
  if (alookup st.parents tx).isSome then ((true, []), st)
  else
    let pt := if ps.isEmpty then [ROOT_ANCHOR] else ps
    let missing := st.get_missing_parents pt
    if missing ≠ [] then ((false, missing), st)
    else
      let st1 : ChronicleStore :=
        { parents := aset st.parents tx pt, child_count := aset st.child_count tx 0,
          tips := st.tips }
      let st2 := pt.foldl (fun s p =>
        let prev := alookupD s.child_count p 0
        { parents := s.parents, child_count := aset s.child_count p (prev + 1),
          tips := if prev = 0 ∧ p ∈ s.tips then sdel s.tips p else s.tips }) st1
      ((true, []), { st2 with tips := sadd st2.tips tx })

/-- Result dict of add_batch. -/
structure BatchResult where
  accepted : List String
  rejected : List (String × List String)
  tips : List String
  size : Nat
  deriving DecidableEq, Repr

def ChronicleStore.add_batch (st : ChronicleStore) (items : List (String × List String)) :
    BatchResult × ChronicleStore :=
  let r := items.foldl (fun acc item =>
    let res := acc.2.add item.1 item.2
    if res.1.1 then ((acc.1.1 ++ [item.1], acc.1.2), res.2)
    else ((acc.1.1, acc.1.2 ++ [(item.1, res.1.2)]), res.2))
    ((([] : List String), ([] : List (String × List String))), st)
  ({ accepted := r.1.1, rejected := r.1.2, tips := r.2.tips, size := r.2.parents.length }, r.2)

/-- Rolling ledger state. max_nodes and the bloom bit count are per-instance
constants; bloom is the set of bit indices that are 1 in the bytearray. -/
structure RollingChronicleStore where
  max_nodes : Nat
  parents : List (Nat × List Nat)
  child_count : List (Nat × Nat)
  tips : List Nat
  order : List Nat
  bloom_bits : Nat
  bloom : List Nat
  deriving DecidableEq, Repr

def root_key : Nat := tx_fingerprint ROOT_ANCHOR

/-- The three bloom bit positions: one blake2s(12) digest of the 8-byte
big-endian key, split into three 4-byte big-endian sub-ranges mod bit count.
The source int.to_bytes(8) requires key < 2^64 (true for every fingerprint);
the mod 2^64 makes the model total. -/
def bloom_hashes (bits : Nat) (key : Nat) : List Nat :=
  let d := blake2s (natToBeBytes 8 (key % 18446744073709551616)) 12
  [beBytesToNat (d.take 4) % bits,
   beBytesToNat ((d.drop 4).take 4) % bits,
   beBytesToNat ((d.drop 8).take 4) % bits]

def RollingChronicleStore.bloom_add (st : RollingChronicleStore) (key : Nat) :
    RollingChronicleStore :=
  { st with bloom := (bloom_hashes st.bloom_bits key).foldl sadd st.bloom }

def RollingChronicleStore.bloom_maybe_has (st : RollingChronicleStore) (key : Nat) : Bool :=
  (bloom_hashes st.bloom_bits key).all (fun h => st.bloom.contains h)

/-- Constructor: CHRONICLE_BLOOM_BITS defaults to 512*1024*1024 = 2^29 bits,
clamped below by 1 <<< 20; the environment override is configuration outside
this model. -/
def RollingChronicleStore.init (max_nodes : Nat) : RollingChronicleStore :=
  let st0 : RollingChronicleStore :=
    { max_nodes := max_nodes, parents := [(root_key, [])], child_count := [(root_key, 0)],
      tips := [root_key], order := [root_key],
      bloom_bits := max (2 ^ 20) (2 ^ 29), bloom := [] }
  st0.bloom_add root_key

def RollingChronicleStore.has (st : RollingChronicleStore) (tx : Nat) : Bool :=
  (alookup st.parents tx).isSome

def RollingChronicleStore.evictAux : Nat → RollingChronicleStore → RollingChronicleStore
  | 0, st => st
  | fuel + 1, st =>
    if st.max_nodes < st.order.length then
      match st.order with
      | [] => st
      | old :: rest =>
        if old = root_key then { st with order := rest ++ [old] }
        else
          RollingChronicleStore.evictAux fuel
            { st with order := rest, parents := apop st.parents old,
                      child_count := apop st.child_count old, tips := sdel st.tips old }
    else st

/-- The while loop of _evict_if_needed. Every iteration either returns or
removes one element of the order queue, so the queue length bounds the
iteration count and is used as structural fuel; the loop is exited exactly
as in the source. -/
def RollingChronicleStore.evict_if_needed (st : RollingChronicleStore) :
    RollingChronicleStore :=
  RollingChronicleStore.evictAux st.order.length st

def RollingChronicleStore.add (st : RollingChronicleStore) (tx : Nat) (ps : List Nat) :
    (Bool × List Nat) × RollingChronicleStore :=
  if (alookup st.parents tx).isSome then ((true, []), st)
  else
    let pt := if ps.isEmpty then [root_key] else ps
    let missing := pt.filter (fun p =>
      !(p == root_key) && (alookup st.parents p).isNone && !(st.bloom_maybe_has p))
    if missing ≠ [] then ((false, missing), st)
    else
      let st1 : RollingChronicleStore :=
        { st with parents := aset st.parents tx pt, child_count := aset st.child_count tx 0,
                  tips := sadd st.tips tx, order := st.order ++ [tx] }
      let st2 := st1.bloom_add tx
      let st3 := pt.foldl (fun s p =>
        match alookup s.child_count p with
        | none => s
        | some prev =>
          { s with child_count := aset s.child_count p (prev + 1),
                   tips := if prev = 0 then sdel s.tips p else s.tips }) st2
      ((true, []), st3.evict_if_needed)

/-- Result dict of the rolling add_batch. -/
structure RBatchResult where
  accepted : List Nat
  rejected : List (Nat × List Nat)
  tips : List Nat
  size : Nat
  max_nodes : Nat
  deriving DecidableEq, Repr

def RollingChronicleStore.add_batch (st : RollingChronicleStore)
    (items : List (Nat × List Nat)) : RBatchResult × RollingChronicleStore :=
  let r := items.foldl (fun acc item =>
    let res := acc.2.add item.1 item.2
    if res.1.1 then ((acc.1.1 ++ [item.1], acc.1.2), res.2)
    else ((acc.1.1, acc.1.2 ++ [(item.1, res.1.2)]), res.2))
    ((([] : List Nat), ([] : List (Nat × List Nat))), st)
  ({ accepted := r.1.1, rejected := r.1.2, tips := r.2.tips, size := r.2.parents.length,
     max_nodes := r.2.max_nodes }, r.2)

/-! Operation sequences over each ledger variant. -/

inductive SOp where
  | addOp : String → List String → SOp
  | addBatchOp : List (String × List String) → SOp
  deriving DecidableEq, Repr

def sstep (st : ChronicleStore) : SOp → ChronicleStore
  | SOp.addOp tx ps => (st.add tx ps).2
  | SOp.addBatchOp items => (st.add_batch items).2

def srun (ops : List SOp) : ChronicleStore := ops.foldl sstep ChronicleStore.init

inductive ROp where
  | addOp : Nat → List Nat → ROp
  | addBatchOp : List (Nat × List Nat) → ROp
  deriving DecidableEq, Repr

def rstep (st : RollingChronicleStore) : ROp → RollingChronicleStore
  | ROp.addOp tx ps => (st.add tx ps).2
  | ROp.addBatchOp items => (st.add_batch items).2

def rrunFrom (st : RollingChronicleStore) (ops : List ROp) : RollingChronicleStore :=
  ops.foldl rstep st

def rrun (max_nodes : Nat) (ops : List ROp) : RollingChronicleStore :=
  rrunFrom (RollingChronicleStore.init max_nodes) ops

/-! ## Consistent-hash shard router (src/fabric/routing.py).
The lock, EWMA timestamps and init logging are concurrency/IO details with no
effect on routing values; loads start at 0.0 per shard and are modelled as
exact rationals. -/

def shard_name (i : Nat) : String := "shard_" ++ toString i

structure ShardManager where
  num_shards : Nat
  replication_factor : Nat
  ring : List (Nat × String)
  sorted_keys : List Nat
  load : List (String × ℚ)
  deriving DecidableEq, Repr

/-- bisect.insort: insert keeping ascending order, to the right of equals. -/
def insort : List Nat → Nat → List Nat
  | [], k => [k]
  | x :: t, k => if x ≤ k then x :: insort t k else k :: x :: t

def initialize_ring (num_shards replication_factor : Nat) :
    List (Nat × String) × List Nat :=
  (List.range num_shards).foldl (fun acc i =>
    (List.range replication_factor).foldl (fun acc2 r =>
      let key := sha256Int (shard_name i ++ ":" ++ toString r)
      (aset acc2.1 key (shard_name i), insort acc2.2 key)) acc) ([], [])

def ShardManager.init (num_shards replication_factor : Nat) : ShardManager :=
  let rs := initialize_ring num_shards replication_factor
  { num_shards := num_shards, replication_factor := replication_factor,
    ring := rs.1, sorted_keys := rs.2,
    load := (List.range num_shards).map (fun i => (shard_name i, (0 : ℚ))) }

/-- bisect.bisect_right on an ascending-sorted list is the count of leading
elements that are ≤ the probe; the ring only ever calls it on sorted_keys. -/
def bisect_right : List Nat → Nat → Nat
  | [], _ => 0
  | x :: t, k => if x ≤ k then bisect_right t k + 1 else 0

def ShardManager.get_shard_for_transaction (m : ShardManager) (tx : String) :
    Option String :=
  if m.ring.isEmpty then none
  else
    let key := sha256Int tx
    let idx0 := bisect_right m.sorted_keys key
    let idx := if idx0 = m.sorted_keys.length then 0 else idx0
    alookup m.ring (m.sorted_keys.getD idx 0)

def ShardManager.loadOf (m : ShardManager) (sid : String) : ℚ := alookupD m.load sid 0

/-- Load-aware routing: probe the next few virtual nodes circularly and keep
the strictly smallest EWMA, ties keeping the earlier candidate. The source
indexes the ring dict directly; the getD "" default is unreachable because
every sorted key is a ring key. -/
def ShardManager.get_shard_for_transaction_load_aware (m : ShardManager) (tx : String)
    (probe : Nat) : Option String :=
  if m.ring.isEmpty then none
  else
    let key := sha256Int tx
    let idx0 := bisect_right m.sorted_keys key
    let idx := if idx0 = m.sorted_keys.length then 0 else idx0
    let nkeys := m.sorted_keys.length
    let best0 := (alookup m.ring (m.sorted_keys.getD idx 0)).getD ""
    let best := (List.range (max 1 probe)).foldl (fun b step =>
      let sid := (alookup m.ring (m.sorted_keys.getD ((idx + (step + 1)) % nkeys) 0)).getD ""
      if m.loadOf sid < m.loadOf b then sid else b) best0
    some best

/-- Modelled from the spec: the routing rule exactly as the claim words it —
the shard owning the first virtual-node key greater than OR EQUAL to the
hash of the key, wrapping circularly to the first (smallest) entry. -/
def routeFirstGE (m : ShardManager) (tx : String) : Option String :=
  if m.ring.isEmpty then none
  else
    match m.sorted_keys.find? (fun x => sha256Int tx ≤ x) with
    | some v => alookup m.ring v
    | none =>
      match m.sorted_keys with
      | [] => none
      | x :: _ => alookup m.ring x

/-- Modelled from the spec (amended wording): the shard owning the first
virtual-node key STRICTLY greater than the hash, wrapping circularly. -/
def routeFirstGT (m : ShardManager) (tx : String) : Option String :=
  if m.ring.isEmpty then none
  else
    match m.sorted_keys.find? (fun x => sha256Int tx < x) with
    | some v => alookup m.ring v
    | none =>
      match m.sorted_keys with
      | [] => none
      | x :: _ => alookup m.ring x

/-! ## Proof-of-Intelligence consensus scorer (src/consensus/poi.py).
Scores are modelled as exact rationals; fmt6 is the 6-decimal rendering
applied by the source before hashing. The per-validator weights cache is a
memoization that never changes the returned vector, so weights_for is a
pure function here. -/

def xorshift32 (seed : Nat) : Nat :=
  let x0 := u32 seed
  let x1 := Nat.xor x0 (u32 (x0 <<< 13))
  let x2 := Nat.xor x1 (u32 (x1 >>> 17))
  let x3 := Nat.xor x2 (u32 (x2 <<< 5))
  u32 x3

def seed_from (s : String) : Nat := beBytesToNat (blake2s (strBytes s) 4)

def weights_for (dim : Nat) (validator_id : String) : List Int :=
  ((List.range dim).foldl (fun acc i =>
    let seed := xorshift32 (acc.1 + i)
    (seed, acc.2 ++ [(Int.ofNat (seed % 2001)) - 1000]))
    (seed_from validator_id, ([] : List Int))).2

def score_vector (dim : Nat) (vector : List ℚ) (validator_id : String) : ℚ :=
  let weights := weights_for dim validator_id
  let n := min vector.length dim
  (List.range n).foldl (fun s i => s + vector.getD i 0 * ((weights.getD i 0 : Int) : ℚ) / 1000) 0

structure PoIProof where
  validator_id : String
  tx_id : String
  score : ℚ
  proof : String
  deriving DecidableEq, Repr

/-- Round half to even at integer precision, the rounding of %.6f. -/
def roundHalfEven (q : ℚ) : Int :=
  let f := Int.floor q
  let r := q - (f : ℚ)
  if r < 1 / 2 then f
  else if 1 / 2 < r then f + 1
  else if f % 2 = 0 then f else f + 1

def pad6 (n : Nat) : String :=
  let s := toString n
  String.mk (List.replicate (6 - s.length) '0') ++ s

/-- The Python format spec .6f: sign, integer part, dot, six fractional
digits, value rounded half-even at the sixth decimal. -/
def fmt6 (q : ℚ) : String :=
  let m := (roundHalfEven (|q| * 1000000)).toNat
  (if q < 0 then "-" else "") ++ toString (m / 1000000) ++ "." ++ pad6 (m % 1000000)

def poiPayload (validator_id tx_id : String) (score : ℚ) : String :=
  validator_id ++ "|" ++ tx_id ++ "|" ++ fmt6 score

def make_proof (dim : Nat) (tx_id : String) (vector : List ℚ) (validator_id : String) :
    PoIProof :=
  let score := score_vector dim vector validator_id
  { validator_id := validator_id, tx_id := tx_id, score := score,
    proof := sha256Hex (poiPayload validator_id tx_id score) }

def verify (threshold : ℚ) (p : PoIProof) : Bool × String :=
  let expected := sha256Hex (poiPayload p.validator_id p.tx_id p.score)
  if expected ≠ p.proof then (false, "bad_proof")
  else if |p.score| < threshold then (false, "score_too_low")
  else (true, "ok")

/-! ## Lemmas about the dict / set models -/

theorem alookup_aset_self {α β : Type} [DecidableEq α] (l : List (α × β)) (k : α) (v : β) :
    alookup (aset l k v) k = some v := by
  induction l with
  | nil => simp [aset, alookup]
  | cons hd t ih =>
    obtain ⟨k2, v2⟩ := hd
    by_cases hk : k2 = k <;> simp [aset, alookup, hk, ih]

theorem alookup_aset_ne {α β : Type} [DecidableEq α] (l : List (α × β)) (k k2 : α) (v : β)
    (hne : k2 ≠ k) : alookup (aset l k v) k2 = alookup l k2 := by
  induction l with
  | nil => simp [aset, alookup, Ne.symm hne]
  | cons hd t ih =>
    obtain ⟨k3, v3⟩ := hd
    by_cases hk : k3 = k
    · subst hk
      simp [aset, alookup, Ne.symm hne]
    · by_cases hk2 : k3 = k2 <;> simp [aset, alookup, hk, hk2, hne, ih]

theorem mem_akeys {α β : Type} [DecidableEq α] (l : List (α × β)) (k : α) :
    k ∈ akeys l ↔ (alookup l k).isSome := by
  induction l with
  | nil => simp [akeys, alookup]
  | cons hd t ih =>
    obtain ⟨k2, v2⟩ := hd
    by_cases hk : k2 = k
    · subst hk
      simp only [akeys, List.map_cons, List.mem_cons, alookup, if_pos rfl]
      simp
    · simp only [akeys, List.map_cons, List.mem_cons, alookup, if_neg hk]
      simp only [akeys] at ih
      simp [Ne.symm hk, ih]

theorem akeys_aset_mem {α β : Type} [DecidableEq α] (l : List (α × β)) (k : α) (v : β)
    (h : (alookup l k).isSome) : akeys (aset l k v) = akeys l := by
  induction l with
  | nil => simp [alookup] at h
  | cons hd t ih =>
    obtain ⟨k2, v2⟩ := hd
    by_cases hk : k2 = k
    · simp [aset, akeys, hk]
    · simp only [alookup, if_neg hk] at h
      simp only [aset, if_neg hk, akeys, List.map_cons]
      simpa [akeys] using ih h

theorem akeys_aset_new {α β : Type} [DecidableEq α] (l : List (α × β)) (k : α) (v : β)
    (h : alookup l k = none) : akeys (aset l k v) = akeys l ++ [k] := by
  induction l with
  | nil => simp [aset, akeys]
  | cons hd t ih =>
    obtain ⟨k2, v2⟩ := hd
    by_cases hk : k2 = k
    · simp [alookup, hk] at h
    · simp only [alookup, if_neg hk] at h
      simp only [aset, if_neg hk, akeys, List.map_cons]
      simpa [akeys] using ih h

theorem akeys_apop {α β : Type} [DecidableEq α] (l : List (α × β)) (k : α) :
    akeys (apop l k) = sdel (akeys l) k := by
  induction l with
  | nil => simp [apop, akeys, sdel]
  | cons hd t ih =>
    obtain ⟨k2, v2⟩ := hd
    by_cases hk : k2 = k
    · simp [apop, akeys, sdel, hk]
    · simp only [apop, if_neg hk, akeys, List.map_cons, sdel]
      simpa [akeys] using ih

theorem alookup_apop_ne {α β : Type} [DecidableEq α] (l : List (α × β)) (k k2 : α)
    (hne : k2 ≠ k) : alookup (apop l k) k2 = alookup l k2 := by
  induction l with
  | nil => simp [apop]
  | cons hd t ih =>
    obtain ⟨k3, v3⟩ := hd
    by_cases hk : k3 = k
    · subst hk
      simp [apop, alookup, Ne.symm hne]
    · by_cases hk2 : k3 = k2 <;> simp [apop, alookup, hk, hk2, hne, ih]

theorem alookup_apop_self {α β : Type} [DecidableEq α] (l : List (α × β)) (k : α)
    (nd : (akeys l).Nodup) : alookup (apop l k) k = none := by
  induction l with
  | nil => simp [apop, alookup]
  | cons hd t ih =>
    obtain ⟨k2, v2⟩ := hd
    simp only [akeys, List.map_cons, List.nodup_cons] at nd
    by_cases hk : k2 = k
    · subst hk
      have h2 : ¬ (alookup t k2).isSome := by
        rw [← mem_akeys]
        exact nd.1
    
      simp only [apop, if_pos rfl]
      simpa using h2
    · simp only [apop, if_neg hk, alookup, ih nd.2]

theorem mem_sdel_of_ne {α : Type} [DecidableEq α] (l : List α) (x y : α) (hne : x ≠ y) :
    x ∈ sdel l y ↔ x ∈ l := by
  induction l with
  | nil => simp [sdel]
  | cons hd t ih =>
    by_cases hk : hd = y
    · subst hk
      simp [sdel, hne]
    · simp [sdel, hk, ih]

theorem sdel_subset {α : Type} [DecidableEq α] (l : List α) (x y : α) :
    x ∈ sdel l y → x ∈ l := by
  induction l with
  | nil => simp [sdel]
  | cons hd t ih =>
    by_cases hk : hd = y <;> simp [sdel, hk] <;> intro h
    · exact Or.inr h
    · rcases h with h | h
      · exact Or.inl h
      · exact Or.inr (ih h)

theorem not_mem_sdel_self {α : Type} [DecidableEq α] (l : List α) (y : α) (nd : l.Nodup) :
    y ∉ sdel l y := by
  induction l with
  | nil => simp [sdel]
  | cons hd t ih =>
    simp only [List.nodup_cons] at nd
    by_cases hk : hd = y
    · subst hk
      simp only [sdel, if_pos rfl]
      exact nd.1
    · simp only [sdel, if_neg hk, List.mem_cons]
      rintro (h | h)
      · exact hk h.symm
      · exact ih nd.2 h

theorem nodup_sdel {α : Type} [DecidableEq α] (l : List α) (y : α) (nd : l.Nodup) :
    (sdel l y).Nodup := by
  induction l with
  | nil => simp [sdel]
  | cons hd t ih =>
    simp only [List.nodup_cons] at nd
    by_cases hk : hd = y
    · simpa [sdel, hk] using nd.2
    · simp only [sdel, if_neg hk, List.nodup_cons]
      exact ⟨fun hmem => nd.1 (sdel_subset t hd y hmem), ih nd.2⟩

theorem mem_sadd {α : Type} [DecidableEq α] (l : List α) (x y : α) :
    x ∈ sadd l y ↔ x ∈ l ∨ x = y := by
  unfold sadd
  by_cases hy : y ∈ l
  · simp only [if_pos hy]
    constructor
    · exact Or.inl
    · rintro (h | h)
      · exact h
      · subst h
        exact hy
  · simp [if_neg hy]

theorem nodup_sadd {α : Type} [DecidableEq α] (l : List α) (y : α) (nd : l.Nodup) :
    (sadd l y).Nodup := by
  unfold sadd
  by_cases hy : y ∈ l
  · simp [hy, nd]
  · simp only [if_neg hy]
    rw [List.nodup_append]
    exact ⟨nd, List.nodup_singleton y, by simpa using fun h => hy h⟩

theorem foldl_preserve {σ α : Type} (Q : σ → Prop) (f : σ → α → σ) :
    ∀ (l : List α) (s : σ), (∀ s2 a, a ∈ l → Q s2 → Q (f s2 a)) → Q s → Q (l.foldl f s) := by
  intro l
  induction l with
  | nil =>
    intro s _ hs
    simpa using hs
  | cons hd t ih =>
    intro s hstep hs
    simp only [List.foldl_cons]
    exact ih (f s hd) (fun s2 a ha => hstep s2 a (List.mem_cons_of_mem hd ha))
      (hstep s hd (List.mem_cons_self hd t) hs)

theorem alookupD_aset_self {α β : Type} [DecidableEq α] (l : List (α × β)) (k : α) (v d : β) :
    alookupD (aset l k v) k d = v := by
  simp [alookupD, alookup_aset_self]

theorem alookupD_aset_ne {α β : Type} [DecidableEq α] (l : List (α × β)) (k k2 : α) (v d : β)
    (hne : k2 ≠ k) : alookupD (aset l k v) k2 d = alookupD l k2 d := by
  simp [alookupD, alookup_aset_ne l k k2 v hne]

/-! ## Well-formedness of the strict ledger, preserved by every operation -/

structure GoodS (st : ChronicleStore) : Prop where
  parNodup : (akeys st.parents).Nodup
  ccDom : ∀ k, (alookup st.parents k).isSome ↔ (alookup st.child_count k).isSome
  ccNodup : (akeys st.child_count).Nodup
  tipsNodup : st.tips.Nodup
  tipsRes : ∀ k, k ∈ st.tips → (alookup st.parents k).isSome
  tipIff : ∀ k, (alookup st.parents k).isSome →
    (k ∈ st.tips ↔ alookupD st.child_count k 0 = 0)
  rootRes : (alookup st.parents ROOT_ANCHOR).isSome

theorem goodS_init : GoodS ChronicleStore.init := by
  refine ⟨?_, ?_, ?_, ?_, ?_, ?_, ?_⟩
  · simp [ChronicleStore.init, akeys]
  · intro k
    by_cases h : ROOT_ANCHOR = k <;> simp [ChronicleStore.init, alookup, h]
  · simp [ChronicleStore.init, akeys]
  · simp [ChronicleStore.init]
  · intro k hk
    simp [ChronicleStore.init] at hk
    simp [ChronicleStore.init, alookup, hk]
  · intro k hk
    by_cases h : ROOT_ANCHOR = k
    · subst h
      simp [ChronicleStore.init, alookupD, alookup]
    · simp [ChronicleStore.init, alookup, h] at hk
  · simp [ChronicleStore.init, alookup]

/-- The loop invariant for the strict parent-count loop of add: parents are
frozen at P, the tip/count relation holds away from the not-yet-registered
tip tx, and the count of tx stays 0. -/
def Qs (tx : String) (P : List (String × List String)) (s : ChronicleStore) : Prop :=
  s.parents = P ∧
  (akeys s.child_count).Nodup ∧
  (∀ k, (alookup P k).isSome ↔ (alookup s.child_count k).isSome) ∧
  s.tips.Nodup ∧
  (∀ k, k ∈ s.tips → (alookup P k).isSome ∧ k ≠ tx) ∧
  (∀ k, k ≠ tx → (alookup P k).isSome → (k ∈ s.tips ↔ alookupD s.child_count k 0 = 0)) ∧
  alookupD s.child_count tx 0 = 0

theorem strict_loop_step (tx : String) (P : List (String × List String))
    (s : ChronicleStore) (p : String) (hp : p ≠ tx) (hres : (alookup P p).isSome)
    (hQ : Qs tx P s) :
    Qs tx P
      { parents := s.parents,
        child_count := aset s.child_count p (alookupD s.child_count p 0 + 1),
        tips := if alookupD s.child_count p 0 = 0 ∧ p ∈ s.tips then sdel s.tips p
                else s.tips } := by
  obtain ⟨hP, hccN, hccD, htN, htR, hiff, htx0⟩ := hQ
  have hpcc : (alookup s.child_count p).isSome := (hccD p).1 hres
  refine ⟨hP, ?_, ?_, ?_, ?_, ?_, ?_⟩
  · rw [akeys_aset_mem s.child_count p _ hpcc]
    exact hccN
  · intro k
    by_cases hk : k = p
    · subst hk
      simp [alookup_aset_self, hres]
    · rw [alookup_aset_ne s.child_count p k _ hk]
      exact hccD k
  · by_cases hcond : alookupD s.child_count p 0 = 0 ∧ p ∈ s.tips
    · simp only [if_pos hcond]
      exact nodup_sdel s.tips p htN
    · simpa [if_neg hcond] using htN
  · intro k hk
    by_cases hcond : alookupD s.child_count p 0 = 0 ∧ p ∈ s.tips
    · simp only [if_pos hcond] at hk
      exact htR k (sdel_subset s.tips k p hk)
    · simp only [if_neg hcond] at hk
      exact htR k hk
  · intro k hktx hkres
    by_cases hk : k = p
    · subst hk
      rw [alookupD_aset_self]
      simp only [Nat.succ_ne_zero, iff_false]
      by_cases hcond : alookupD s.child_count k 0 = 0 ∧ k ∈ s.tips
      · simp only [if_pos hcond]
        exact not_mem_sdel_self s.tips k htN
      · simp only [if_neg hcond]
        intro hmem
        exact hcond ⟨((hiff k hktx hkres).1 hmem), hmem⟩
    · rw [alookupD_aset_ne s.child_count p k _ _ hk]
      by_cases hcond : alookupD s.child_count p 0 = 0 ∧ p ∈ s.tips
      · simp only [if_pos hcond]
        rw [mem_sdel_of_ne s.tips k p hk]
        exact hiff k hktx hkres
      · simp only [if_neg hcond]
        exact hiff k hktx hkres
  · rw [alookupD_aset_ne s.child_count p tx _ _ (fun h => hp h.symm)]
    exact htx0

theorem nodup_append_single {α : Type} (l : List α) (x : α) (nd : l.Nodup) (hx : x ∉ l) :
    (l ++ [x]).Nodup := by
  rw [List.nodup_append]
  exact ⟨nd, List.nodup_singleton x, by simpa using fun h => hx h⟩

/-- The effective parent tuple of a strict add. -/
def ptOf (ps : List String) : List String := if ps.isEmpty then [ROOT_ANCHOR] else ps

theorem add_already (st : ChronicleStore) (tx : String) (ps : List String)
    (h : (alookup st.parents tx).isSome) : st.add tx ps = ((true, []), st) := by
  simp [ChronicleStore.add, h]

theorem add_missing (st : ChronicleStore) (tx : String) (ps : List String)
    (h1 : ¬ (alookup st.parents tx).isSome)
    (h2 : st.get_missing_parents (ptOf ps) ≠ []) :
    st.add tx ps = ((false, st.get_missing_parents (ptOf ps)), st) := by
  simp only [ChronicleStore.add, ptOf] at h2 ⊢
  rw [if_neg h1, if_pos h2]

/-- The state produced by an accepting fresh strict add, written out. -/
def addAcceptState (st : ChronicleStore) (tx : String) (pt : List String) : ChronicleStore :=
  let st2 := pt.foldl (fun (s : ChronicleStore) p =>
    { parents := s.parents,
      child_count := aset s.child_count p (alookupD s.child_count p 0 + 1),
      tips := if alookupD s.child_count p 0 = 0 ∧ p ∈ s.tips then sdel s.tips p
              else s.tips })
    ({ parents := aset st.parents tx pt, child_count := aset st.child_count tx 0,
       tips := st.tips } : ChronicleStore)
  { st2 with tips := sadd st2.tips tx }

theorem add_accept (st : ChronicleStore) (tx : String) (ps : List String)
    (h1 : ¬ (alookup st.parents tx).isSome)
    (h2 : st.get_missing_parents (ptOf ps) = []) :
    st.add tx ps = ((true, []), addAcceptState st tx (ptOf ps)) := by
  simp only [ChronicleStore.add, addAcceptState, ptOf] at h2 ⊢
  rw [if_neg h1, if_neg (fun hcon => hcon h2)]

theorem goodS_add (st : ChronicleStore) (tx : String) (ps : List String) (hw : GoodS st) :
    GoodS (st.add tx ps).2 := by
  by_cases h1 : (alookup st.parents tx).isSome
  · rw [add_already st tx ps h1]
    exact hw
  · by_cases h2 : st.get_missing_parents (ptOf ps) = []
    · rw [add_accept st tx ps h1 h2]
      have htxnone : alookup st.parents tx = none := by
        simpa using h1
      have htxroot : tx ≠ ROOT_ANCHOR := by
        intro h
        exact h1 (h ▸ hw.rootRes)
      have hPk : ∀ p ∈ ptOf ps,
          (alookup (aset st.parents tx (ptOf ps)) p).isSome ∧ p ≠ tx := by
        intro p hp
        have hfe : ∀ a ∈ ptOf ps,
            ¬(!(a == ROOT_ANCHOR) && (alookup st.parents a).isNone) = true := by
          rw [← List.filter_eq_nil_iff]
          exact h2
        have hor : p = ROOT_ANCHOR ∨ (alookup st.parents p).isSome := by
          have hnp := hfe p hp
          by_cases hr : p = ROOT_ANCHOR
          · exact Or.inl hr
          · right
            simp [hr] at hnp
            exact Option.ne_none_iff_isSome.mp hnp
        rcases hor with hor | hor
        · subst hor
          refine ⟨?_, fun h => htxroot h.symm⟩
          rw [alookup_aset_ne st.parents tx ROOT_ANCHOR _ (fun h => htxroot h.symm)]
          exact hw.rootRes
        · have hpx : p ≠ tx := by
            intro h
            exact h1 (h ▸ hor)
          refine ⟨?_, hpx⟩
          rw [alookup_aset_ne st.parents tx p _ hpx]
          exact hor
      have hQ1 : Qs tx (aset st.parents tx (ptOf ps))
          { parents := aset st.parents tx (ptOf ps),
            child_count := aset st.child_count tx 0, tips := st.tips } := by
        have hccnone : alookup st.child_count tx = none := by
          have hd := hw.ccDom tx
          rw [htxnone] at hd
          simp at hd
          simpa using hd
        refine ⟨rfl, ?_, ?_, hw.tipsNodup, ?_, ?_, ?_⟩
        · rw [akeys_aset_new st.child_count tx 0 hccnone]
          refine nodup_append_single _ tx hw.ccNodup ?_
          rw [mem_akeys]
          simp [hccnone]
        · intro k
          by_cases hk : k = tx
          · subst hk
            simp [alookup_aset_self]
          · rw [alookup_aset_ne st.parents tx k _ hk,
              alookup_aset_ne st.child_count tx k 0 hk]
            exact hw.ccDom k
        · intro k hk
          have hres := hw.tipsRes k hk
          have hkx : k ≠ tx := by
            intro h
            exact h1 (h ▸ hres)
          refine ⟨?_, hkx⟩
          rw [alookup_aset_ne st.parents tx k _ hkx]
          exact hres
        · intro k hkx hres
          rw [alookup_aset_ne st.parents tx k _ hkx] at hres
          rw [alookupD_aset_ne st.child_count tx k 0 0 hkx]
          exact hw.tipIff k hres
        · rw [alookupD_aset_self]
      have hQ2 := foldl_preserve (Qs tx (aset st.parents tx (ptOf ps)))
        (fun s p =>
          { parents := s.parents,
            child_count := aset s.child_count p (alookupD s.child_count p 0 + 1),
            tips := if alookupD s.child_count p 0 = 0 ∧ p ∈ s.tips then sdel s.tips p
                    else s.tips })
        (ptOf ps)
        { parents := aset st.parents tx (ptOf ps),
          child_count := aset st.child_count tx 0, tips := st.tips }
        (fun s2 a ha hQ =>
          strict_loop_step tx (aset st.parents tx (ptOf ps)) s2 a
            (hPk a ha).2 (hPk a ha).1 hQ)
        hQ1
      simp only [addAcceptState]
      obtain ⟨hP, hccN, hccD, htN, htR, hiff, htx0⟩ := hQ2
      constructor
      · rw [hP, akeys_aset_new st.parents tx (ptOf ps) htxnone]
        refine nodup_append_single _ tx hw.parNodup ?_
        rw [mem_akeys]
        simp [htxnone]
      · intro k
        rw [hP]
        exact hccD k
      · exact hccN
      · exact nodup_sadd _ tx htN
      · intro k hk
        rw [mem_sadd] at hk
        rw [hP]
        rcases hk with hk | hk
        · exact (htR k hk).1
        · subst hk
          simp [alookup_aset_self]
      · intro k hres
        rw [hP] at hres
        rw [mem_sadd]
        by_cases hk : k = tx
        · subst hk
          simp [htx0]
        · have hkiff := hiff k hk hres
          constructor
          · rintro (h | h)
            · exact hkiff.1 h
            · exact absurd h hk
          · intro h
            exact Or.inl (hkiff.2 h)
      · rw [hP]
        rw [alookup_aset_ne st.parents tx ROOT_ANCHOR _ (fun h => htxroot h.symm)]
        exact hw.rootRes
    · rw [add_missing st tx ps h1 (by simpa using h2)]
      exact hw

theorem foldl_snd {γ σ α : Type} (F : (γ × σ) → α → (γ × σ)) (g : σ → α → σ)
    (hF : ∀ acc a, (F acc a).2 = g acc.2 a) :
    ∀ (l : List α) (acc : γ × σ), (l.foldl F acc).2 = l.foldl g acc.2 := by
  intro l
  induction l with
  | nil =>
    intro acc
    rfl
  | cons hd t ih =>
    intro acc
    simp only [List.foldl_cons]
    rw [ih, hF]

theorem add_batch_snd (st : ChronicleStore) (items : List (String × List String)) :
    (st.add_batch items).2 = items.foldl (fun s item => (s.add item.1 item.2).2) st := by
  have hF : ∀ (acc : (List String × List (String × List String)) × ChronicleStore)
      (a : String × List String),
      ((fun (acc : (List String × List (String × List String)) × ChronicleStore)
          (item : String × List String) =>
        let res := acc.2.add item.1 item.2
        if res.1.1 then ((acc.1.1 ++ [item.1], acc.1.2), res.2)
        else ((acc.1.1, acc.1.2 ++ [(item.1, res.1.2)]), res.2)) acc a).2
      = (acc.2.add a.1 a.2).2 := by
    intro acc a
    by_cases h : (acc.2.add a.1 a.2).1.1 <;> simp [h]
  simp only [ChronicleStore.add_batch]
  exact foldl_snd _ _ hF items _

theorem goodS_run (ops : List SOp) : GoodS (srun ops) := by
  refine foldl_preserve GoodS sstep ops ChronicleStore.init (fun s op _ h => ?_) goodS_init
  cases op with
  | addOp tx ps => exact goodS_add s tx ps h
  | addBatchOp items =>
    show GoodS (s.add_batch items).2
    rw [add_batch_snd]
    exact foldl_preserve GoodS _ items s (fun s2 a _ h2 => goodS_add s2 a.1 a.2 h2) h

/-! ## Well-formedness of the rolling ledger -/

structure GoodR (st : RollingChronicleStore) : Prop where
  ordNodup : st.order.Nodup
  ordMem : ∀ k, k ∈ st.order ↔ (alookup st.parents k).isSome
  rootOrd : root_key ∈ st.order
  parNodup : (akeys st.parents).Nodup
  ccDom : ∀ k, (alookup st.parents k).isSome ↔ (alookup st.child_count k).isSome
  ccNodup : (akeys st.child_count).Nodup
  tipsNodup : st.tips.Nodup
  tipsRes : ∀ k, k ∈ st.tips → (alookup st.parents k).isSome
  tipIff : ∀ k, (alookup st.parents k).isSome →
    (k ∈ st.tips ↔ alookupD st.child_count k 0 = 0)
  bloomRes : ∀ k, (alookup st.parents k).isSome →
    ∀ h, h ∈ bloom_hashes st.bloom_bits k → h ∈ st.bloom

theorem sadd_incl {α : Type} [DecidableEq α] (l b : List α) (x : α) (hx : x ∈ b) :
    x ∈ l.foldl sadd b :=
  foldl_preserve (fun s => x ∈ s) sadd l b
    (fun s a _ hs => (mem_sadd s x a).2 (Or.inl hs)) hx

theorem mem_foldl_sadd {α : Type} [DecidableEq α] :
    ∀ (l : List α) (b : List α) (x : α), x ∈ l → x ∈ l.foldl sadd b := by
  intro l
  induction l with
  | nil =>
    intro b x hx
    simp at hx
  | cons hd t ih =>
    intro b x hx
    simp only [List.foldl_cons]
    rcases List.mem_cons.mp hx with hx | hx
    · subst hx
      exact sadd_incl t (sadd b x) x ((mem_sadd b x x).2 (Or.inr rfl))
    · exact ih (sadd b hd) x hx

theorem goodR_init (max_nodes : Nat) : GoodR (RollingChronicleStore.init max_nodes) := by
  constructor
  · simp [RollingChronicleStore.init, RollingChronicleStore.bloom_add]
  · intro k
    by_cases h : root_key = k
    · subst h
      simp [RollingChronicleStore.init, RollingChronicleStore.bloom_add, alookup]
    · simp [RollingChronicleStore.init, RollingChronicleStore.bloom_add, alookup, h, Ne.symm h]
  · simp [RollingChronicleStore.init, RollingChronicleStore.bloom_add]
  · simp [RollingChronicleStore.init, RollingChronicleStore.bloom_add, akeys]
  · intro k
    by_cases h : root_key = k <;>
      simp [RollingChronicleStore.init, RollingChronicleStore.bloom_add, alookup, h]
  · simp [RollingChronicleStore.init, RollingChronicleStore.bloom_add, akeys]
  · simp [RollingChronicleStore.init, RollingChronicleStore.bloom_add]
  · intro k hk
    simp [RollingChronicleStore.init, RollingChronicleStore.bloom_add] at hk
    simp [RollingChronicleStore.init, RollingChronicleStore.bloom_add, alookup, hk]
  · intro k hk
    by_cases h : root_key = k
    · subst h
      simp [RollingChronicleStore.init, RollingChronicleStore.bloom_add, alookupD, alookup]
    · simp [RollingChronicleStore.init, RollingChronicleStore.bloom_add, alookup, h] at hk
  · intro k hk h hh
    have hkr : k = root_key := by
      by_cases h2 : root_key = k
      · exact h2.symm
      · simp [RollingChronicleStore.init, RollingChronicleStore.bloom_add, alookup, h2] at hk
    subst hkr
    simp only [RollingChronicleStore.init, RollingChronicleStore.bloom_add] at hh ⊢
    exact mem_foldl_sadd _ [] h hh

theorem evictAux_goodR : ∀ (fuel : Nat) (st : RollingChronicleStore), GoodR st →
    GoodR (RollingChronicleStore.evictAux fuel st) := by
  intro fuel
  induction fuel with
  | zero =>
    intro st hw
    exact hw
  | succ f ih =>
    intro st hw
    rw [RollingChronicleStore.evictAux]
    by_cases hc : st.max_nodes < st.order.length
    · rw [if_pos hc]
      split
      · exact hw
      · rename_i old rest ho
        by_cases hr : old = root_key
        · rw [if_pos hr]
          have hperm : (old :: rest).Perm (rest ++ [old]) :=
            (List.perm_append_singleton old rest).symm
          constructor
          · exact hperm.nodup_iff.mp (ho ▸ hw.ordNodup)
          · intro k
            rw [← hperm.mem_iff]
            exact ho ▸ hw.ordMem k
          · rw [← hperm.mem_iff]
            exact ho ▸ hw.rootOrd
          · exact hw.parNodup
          · exact hw.ccDom
          · exact hw.ccNodup
          · exact hw.tipsNodup
          · exact hw.tipsRes
          · exact hw.tipIff
          · exact hw.bloomRes
        · rw [if_neg hr]
          refine ih _ ?_
          have hordnd : (old :: rest).Nodup := ho ▸ hw.ordNodup
          have holdmem : old ∈ st.order := by
            rw [ho]
            exact List.mem_cons_self old rest
          have holdres : (alookup st.parents old).isSome := (hw.ordMem old).1 holdmem
          have holdnotrest : old ∉ rest := (List.nodup_cons.mp hordnd).1
          constructor
          · exact (List.nodup_cons.mp hordnd).2
          · intro k
            by_cases hk : k = old
            · subst hk
              rw [alookup_apop_self st.parents k hw.parNodup]
              simpa using holdnotrest
            · rw [alookup_apop_ne st.parents old k hk]
              have : (k ∈ st.order) ↔ _ := hw.ordMem k
              rw [ho] at this
              simp only [List.mem_cons] at this
              constructor
              · intro hmem
                exact this.1 (Or.inr hmem)
              · intro hsome
                rcases this.2 hsome with h | h
                · exact absurd h hk
                · exact h
          · have : root_key ∈ old :: rest := ho ▸ hw.rootOrd
            rcases List.mem_cons.mp this with h | h
            · exact absurd h.symm hr
            · exact h
          · rw [akeys_apop]
            exact nodup_sdel _ old hw.parNodup
          · intro k
            by_cases hk : k = old
            · subst hk
              rw [alookup_apop_self st.parents k hw.parNodup,
                alookup_apop_self st.child_count k hw.ccNodup]
              exact Iff.rfl
            · rw [alookup_apop_ne st.parents old k hk,
                alookup_apop_ne st.child_count old k hk]
              exact hw.ccDom k
          · rw [akeys_apop]
            exact nodup_sdel _ old hw.ccNodup
          · exact nodup_sdel _ old hw.tipsNodup
          · intro k hk
            have hk2 : k ∈ st.tips := sdel_subset _ k old hk
            have hkne : k ≠ old := by
              intro h
              subst h
              exact not_mem_sdel_self st.tips k hw.tipsNodup hk
            rw [alookup_apop_ne st.parents old k hkne]
            exact hw.tipsRes k hk2
          · intro k hres
            have hkne : k ≠ old := by
              intro h
              subst h
              rw [alookup_apop_self st.parents k hw.parNodup] at hres
              simp at hres
            rw [alookup_apop_ne st.parents old k hkne] at hres
            rw [mem_sdel_of_ne st.tips k old hkne]
            have := hw.tipIff k hres
            rwa [show alookupD (apop st.child_count old) k 0 = alookupD st.child_count k 0 by
              simp [alookupD, alookup_apop_ne st.child_count old k hkne]]
          · intro k hres h hh
            have hkne : k ≠ old := by
              intro heq
              subst heq
              rw [alookup_apop_self st.parents k hw.parNodup] at hres
              simp at hres
            rw [alookup_apop_ne st.parents old k hkne] at hres
            exact hw.bloomRes k hres h hh
    · rw [if_neg hc]
      exact hw

theorem goodR_evict (st : RollingChronicleStore) (hw : GoodR st) :
    GoodR st.evict_if_needed :=
  evictAux_goodR st.order.length st hw

/-- Effective parent tuple of a rolling add. -/
def rptOf (ps : List Nat) : List Nat := if ps.isEmpty then [root_key] else ps

/-- The best-effort missing list of a rolling add. -/
def rmiss (st : RollingChronicleStore) (pt : List Nat) : List Nat :=
  pt.filter (fun p =>
    !(p == root_key) && (alookup st.parents p).isNone && !(st.bloom_maybe_has p))

/-- State after an accepting fresh rolling add, before eviction. -/
def raddPre (st : RollingChronicleStore) (tx : Nat) (pt : List Nat) :
    RollingChronicleStore :=
  pt.foldl (fun (s : RollingChronicleStore) p =>
      match alookup s.child_count p with
      | none => s
      | some prev =>
        { s with child_count := aset s.child_count p (prev + 1),
                 tips := if prev = 0 then sdel s.tips p else s.tips })
    (RollingChronicleStore.bloom_add
      { st with parents := aset st.parents tx pt,
                child_count := aset st.child_count tx 0,
                tips := sadd st.tips tx, order := st.order ++ [tx] } tx)

theorem radd_already (st : RollingChronicleStore) (tx : Nat) (ps : List Nat)
    (h : (alookup st.parents tx).isSome) : st.add tx ps = ((true, []), st) := by
  simp [RollingChronicleStore.add, h]

theorem radd_missing (st : RollingChronicleStore) (tx : Nat) (ps : List Nat)
    (h1 : ¬ (alookup st.parents tx).isSome) (h2 : rmiss st (rptOf ps) ≠ []) :
    st.add tx ps = ((false, rmiss st (rptOf ps)), st) := by
  simp only [RollingChronicleStore.add, rmiss, rptOf] at h2 ⊢
  rw [if_neg h1, if_pos h2]

theorem radd_accept (st : RollingChronicleStore) (tx : Nat) (ps : List Nat)
    (h1 : ¬ (alookup st.parents tx).isSome) (h2 : rmiss st (rptOf ps) = []) :
    st.add tx ps = ((true, []), (raddPre st tx (rptOf ps)).evict_if_needed) := by
  simp only [RollingChronicleStore.add, rmiss, rptOf, raddPre] at h2 ⊢
  rw [if_neg h1, if_neg (fun hcon => hcon h2)]

/-- Loop invariant of the rolling parent-count loop: all fields other than
child_count and tips are frozen at the reference state st2, and the tip/count
relation holds for every resident id. -/
def Qr (st2 s : RollingChronicleStore) : Prop :=
  s.parents = st2.parents ∧ s.order = st2.order ∧ s.bloom = st2.bloom ∧
  s.bloom_bits = st2.bloom_bits ∧ s.max_nodes = st2.max_nodes ∧
  (akeys s.child_count).Nodup ∧
  (∀ k, (alookup st2.parents k).isSome ↔ (alookup s.child_count k).isSome) ∧
  s.tips.Nodup ∧
  (∀ k, k ∈ s.tips → (alookup st2.parents k).isSome) ∧
  (∀ k, (alookup st2.parents k).isSome → (k ∈ s.tips ↔ alookupD s.child_count k 0 = 0))

theorem rolling_loop_step (st2 s : RollingChronicleStore) (p : Nat) (hQ : Qr st2 s) :
    Qr st2 (match alookup s.child_count p with
      | none => s
      | some prev =>
        { s with child_count := aset s.child_count p (prev + 1),
                 tips := if prev = 0 then sdel s.tips p else s.tips }) := by
  obtain ⟨hpar, hord, hbl, hbb, hmn, hccN, hccD, htN, htR, hiff⟩ := hQ
  rcases hm : alookup s.child_count p with _ | prev
  · exact ⟨hpar, hord, hbl, hbb, hmn, hccN, hccD, htN, htR, hiff⟩
  · show Qr st2
      { s with child_count := aset s.child_count p (prev + 1),
               tips := if prev = 0 then sdel s.tips p else s.tips }
    have hsome : (alookup s.child_count p).isSome := by simp [hm]
    have hpres : (alookup st2.parents p).isSome := (hccD p).2 hsome
    refine ⟨hpar, hord, hbl, hbb, hmn, ?_, ?_, ?_, ?_, ?_⟩
    · rw [akeys_aset_mem s.child_count p _ hsome]
      exact hccN
    · intro k
      by_cases hk : k = p
      · subst hk
        simp [alookup_aset_self, hpres]
      · rw [alookup_aset_ne s.child_count p k _ hk]
        exact hccD k
    · by_cases hz : prev = 0
      · simp only [if_pos hz]
        exact nodup_sdel _ p htN
      · simpa [if_neg hz] using htN
    · intro k hk
      by_cases hz : prev = 0
      · simp only [if_pos hz] at hk
        exact htR k (sdel_subset _ k p hk)
      · simp only [if_neg hz] at hk
        exact htR k hk
    · intro k hres
      by_cases hk : k = p
      · subst hk
        rw [alookupD_aset_self]
        simp only [Nat.succ_ne_zero, iff_false]
        by_cases hz : prev = 0
        · simp only [if_pos hz]
          exact not_mem_sdel_self _ k htN
        · simp only [if_neg hz]
          intro hmem
          have := (hiff k hres).1 hmem
          rw [show alookupD s.child_count k 0 = prev by simp [alookupD, hm]] at this
          exact hz this
      · rw [alookupD_aset_ne s.child_count p k _ _ hk]
        by_cases hz : prev = 0
        · simp only [if_pos hz]
          rw [mem_sdel_of_ne s.tips k p hk]
          exact hiff k hres
        · simp only [if_neg hz]
          exact hiff k hres

theorem goodR_add (st : RollingChronicleStore) (tx : Nat) (ps : List Nat)
    (hw : GoodR st) : GoodR (st.add tx ps).2 := by
  by_cases h1 : (alookup st.parents tx).isSome
  · rw [radd_already st tx ps h1]
    exact hw
  · by_cases h2 : rmiss st (rptOf ps) = []
    · rw [radd_accept st tx ps h1 h2]
      refine goodR_evict _ ?_
      simp only [raddPre]
      have htxnone : alookup st.parents tx = none := by simpa using h1
      have htxord : tx ∉ st.order := by
        rw [hw.ordMem tx]
        simp [htxnone]
      have hccnone : alookup st.child_count tx = none := by
        have hd := hw.ccDom tx
        rw [htxnone] at hd
        simp at hd
        simpa using hd
      have htxtips : tx ∉ st.tips := by
        intro h
        exact h1 (hw.tipsRes tx h)
      have hQ2 : Qr (RollingChronicleStore.bloom_add
          { st with parents := aset st.parents tx (rptOf ps),
                    child_count := aset st.child_count tx 0,
                    tips := sadd st.tips tx, order := st.order ++ [tx] } tx)
          (RollingChronicleStore.bloom_add
          { st with parents := aset st.parents tx (rptOf ps),
                    child_count := aset st.child_count tx 0,
                    tips := sadd st.tips tx, order := st.order ++ [tx] } tx) := by
        refine ⟨rfl, rfl, rfl, rfl, rfl, ?_, ?_, ?_, ?_, ?_⟩
        · show (akeys (aset st.child_count tx 0)).Nodup
          rw [akeys_aset_new st.child_count tx 0 hccnone]
          refine nodup_append_single _ tx hw.ccNodup ?_
          rw [mem_akeys]
          simp [hccnone]
        · intro k
          show (alookup (aset st.parents tx (rptOf ps)) k).isSome ↔
            (alookup (aset st.child_count tx 0) k).isSome
          by_cases hk : k = tx
          · subst hk
            simp [alookup_aset_self]
          · rw [alookup_aset_ne st.parents tx k _ hk,
              alookup_aset_ne st.child_count tx k 0 hk]
            exact hw.ccDom k
        · show (sadd st.tips tx).Nodup
          exact nodup_sadd _ tx hw.tipsNodup
        · intro k hk
          show (alookup (aset st.parents tx (rptOf ps)) k).isSome
          rcases (mem_sadd st.tips k tx).1 hk with hk2 | hk2
          · have hres := hw.tipsRes k hk2
            have hkx : k ≠ tx := by
              intro h
              exact h1 (h ▸ hres)
            rw [alookup_aset_ne st.parents tx k _ hkx]
            exact hres
          · subst hk2
            simp [alookup_aset_self]
        · intro k hres
          show k ∈ sadd st.tips tx ↔ alookupD (aset st.child_count tx 0) k 0 = 0
          by_cases hk : k = tx
          · subst hk
            rw [alookupD_aset_self]
            simp [mem_sadd]
          · rw [alookupD_aset_ne st.child_count tx k 0 0 hk, mem_sadd]
            have hres2 : (alookup st.parents k).isSome := by
              have : (alookup (aset st.parents tx (rptOf ps)) k).isSome := hres
              rwa [alookup_aset_ne st.parents tx k _ hk] at this
            constructor
            · rintro (h | h)
              · exact (hw.tipIff k hres2).1 h
              · exact absurd h hk
            · intro h
              exact Or.inl ((hw.tipIff k hres2).2 h)
      have hQ3 := foldl_preserve (Qr _)
        (fun (s : RollingChronicleStore) p =>
          match alookup s.child_count p with
          | none => s
          | some prev =>
            { s with child_count := aset s.child_count p (prev + 1),
                     tips := if prev = 0 then sdel s.tips p else s.tips })
        (rptOf ps) _
        (fun s a _ hQ => rolling_loop_step _ s a hQ) hQ2
      obtain ⟨hpar, hord, hbl, hbb, hmn, hccN, hccD, htN, htR, hiff⟩ := hQ3
      constructor
      · rw [hord]
        show (st.order ++ [tx]).Nodup
        exact nodup_append_single _ tx hw.ordNodup htxord
      · intro k
        rw [hord, hpar]
        show k ∈ st.order ++ [tx] ↔ (alookup (aset st.parents tx (rptOf ps)) k).isSome
        rw [List.mem_append]
        by_cases hk : k = tx
        · subst hk
          simp [alookup_aset_self]
        · rw [alookup_aset_ne st.parents tx k _ hk]
          simp only [List.mem_singleton, hk, or_false]
          exact hw.ordMem k
      · rw [hord]
        show root_key ∈ st.order ++ [tx]
        exact List.mem_append.2 (Or.inl hw.rootOrd)
      · rw [hpar]
        show (akeys (aset st.parents tx (rptOf ps))).Nodup
        rw [akeys_aset_new st.parents tx (rptOf ps) htxnone]
        refine nodup_append_single _ tx hw.parNodup ?_
        rw [mem_akeys]
        simp [htxnone]
      · intro k
        rw [hpar]
        exact hccD k
      · exact hccN
      · exact htN
      · intro k hk
        rw [hpar]
        exact htR k hk
      · intro k hres
        rw [hpar] at hres
        exact hiff k hres
      · intro k hres h hh
        rw [hpar] at hres
        rw [hbb] at hh
        rw [hbl]
        simp only [RollingChronicleStore.bloom_add] at hres hh ⊢
        by_cases hk : k = tx
        · subst hk
          exact mem_foldl_sadd _ _ h hh
        · rw [alookup_aset_ne st.parents tx k _ hk] at hres
          exact sadd_incl _ _ h (hw.bloomRes k hres h hh)
    · rw [radd_missing st tx ps h1 (by simpa using h2)]
      exact hw

theorem radd_batch_snd (st : RollingChronicleStore) (items : List (Nat × List Nat)) :
    (st.add_batch items).2 = items.foldl (fun s item => (s.add item.1 item.2).2) st := by
  have hF : ∀ (acc : (List Nat × List (Nat × List Nat)) × RollingChronicleStore)
      (a : Nat × List Nat),
      ((fun (acc : (List Nat × List (Nat × List Nat)) × RollingChronicleStore)
          (item : Nat × List Nat) =>
        let res := acc.2.add item.1 item.2
        if res.1.1 then ((acc.1.1 ++ [item.1], acc.1.2), res.2)
        else ((acc.1.1, acc.1.2 ++ [(item.1, res.1.2)]), res.2)) acc a).2
      = (acc.2.add a.1 a.2).2 := by
    intro acc a
    by_cases h : (acc.2.add a.1 a.2).1.1 <;> simp [h]
  simp only [RollingChronicleStore.add_batch]
  exact foldl_snd _ _ hF items _

theorem goodR_step (st : RollingChronicleStore) (op : ROp) (hw : GoodR st) :
    GoodR (rstep st op) := by
  cases op with
  | addOp tx ps => exact goodR_add st tx ps hw
  | addBatchOp items =>
    show GoodR (st.add_batch items).2
    rw [radd_batch_snd]
    exact foldl_preserve GoodR _ items st (fun s2 a _ h2 => goodR_add s2 a.1 a.2 h2) hw

theorem goodR_runFrom (st : RollingChronicleStore) (ops : List ROp) (hw : GoodR st) :
    GoodR (rrunFrom st ops) :=
  foldl_preserve GoodR rstep ops st (fun s op _ h => goodR_step s op h) hw

theorem goodR_run (max_nodes : Nat) (ops : List ROp) : GoodR (rrun max_nodes ops) :=
  goodR_runFrom _ ops (goodR_init max_nodes)

/-! ## Constant fields: the bloom filter only grows, its width and max_nodes
never change, under any rolling operation -/

theorem rloop_consts (pt : List Nat) (s0 : RollingChronicleStore) :
    (pt.foldl (fun (s : RollingChronicleStore) p =>
      match alookup s.child_count p with
      | none => s
      | some prev =>
        { s with child_count := aset s.child_count p (prev + 1),
                 tips := if prev = 0 then sdel s.tips p else s.tips }) s0).bloom = s0.bloom ∧
    (pt.foldl (fun (s : RollingChronicleStore) p =>
      match alookup s.child_count p with
      | none => s
      | some prev =>
        { s with child_count := aset s.child_count p (prev + 1),
                 tips := if prev = 0 then sdel s.tips p else s.tips }) s0).bloom_bits
      = s0.bloom_bits ∧
    (pt.foldl (fun (s : RollingChronicleStore) p =>
      match alookup s.child_count p with
      | none => s
      | some prev =>
        { s with child_count := aset s.child_count p (prev + 1),
                 tips := if prev = 0 then sdel s.tips p else s.tips }) s0).max_nodes
      = s0.max_nodes := by
  refine foldl_preserve
    (fun s => s.bloom = s0.bloom ∧ s.bloom_bits = s0.bloom_bits ∧ s.max_nodes = s0.max_nodes)
    _ pt s0 (fun s a _ hs => ?_) ⟨rfl, rfl, rfl⟩
  rcases hm : alookup s.child_count a with _ | prev
  · exact hs
  · exact hs

theorem evictAux_consts : ∀ (fuel : Nat) (st : RollingChronicleStore),
    (RollingChronicleStore.evictAux fuel st).bloom = st.bloom ∧
    (RollingChronicleStore.evictAux fuel st).bloom_bits = st.bloom_bits ∧
    (RollingChronicleStore.evictAux fuel st).max_nodes = st.max_nodes := by
  intro fuel
  induction fuel with
  | zero =>
    intro st
    exact ⟨rfl, rfl, rfl⟩
  | succ f ih =>
    intro st
    rw [RollingChronicleStore.evictAux]
    by_cases hc : st.max_nodes < st.order.length
    · rw [if_pos hc]
      split
      · exact ⟨rfl, rfl, rfl⟩
      · rename_i old rest ho
        by_cases hr : old = root_key
        · rw [if_pos hr]
          exact ⟨rfl, rfl, rfl⟩
        · rw [if_neg hr]
          exact ih _
    · rw [if_neg hc]
      exact ⟨rfl, rfl, rfl⟩

theorem radd_consts (st : RollingChronicleStore) (tx : Nat) (ps : List Nat) :
    (st.add tx ps).2.bloom_bits = st.bloom_bits ∧
    (st.add tx ps).2.max_nodes = st.max_nodes ∧
    ∀ x ∈ st.bloom, x ∈ (st.add tx ps).2.bloom := by
  by_cases h1 : (alookup st.parents tx).isSome
  · rw [radd_already st tx ps h1]
    exact ⟨rfl, rfl, fun x hx => hx⟩
  · by_cases h2 : rmiss st (rptOf ps) = []
    · rw [radd_accept st tx ps h1 h2]
      have hpre := rloop_consts (rptOf ps)
        (RollingChronicleStore.bloom_add
          { st with parents := aset st.parents tx (rptOf ps),
                    child_count := aset st.child_count tx 0,
                    tips := sadd st.tips tx, order := st.order ++ [tx] } tx)
      have hev := evictAux_consts (raddPre st tx (rptOf ps)).order.length
        (raddPre st tx (rptOf ps))
      simp only [RollingChronicleStore.evict_if_needed]
      refine ⟨?_, ?_, ?_⟩
      · rw [hev.2.1]
        show (raddPre st tx (rptOf ps)).bloom_bits = st.bloom_bits
        simp only [raddPre]
        rw [hpre.2.1]
        rfl
      · rw [hev.2.2]
        show (raddPre st tx (rptOf ps)).max_nodes = st.max_nodes
        simp only [raddPre]
        rw [hpre.2.2]
        rfl
      · intro x hx
        rw [hev.1]
        show x ∈ (raddPre st tx (rptOf ps)).bloom
        simp only [raddPre]
        rw [hpre.1]
        simp only [RollingChronicleStore.bloom_add]
        exact sadd_incl _ _ x hx
    · rw [radd_missing st tx ps h1 (by simpa using h2)]
      exact ⟨rfl, rfl, fun x hx => hx⟩

theorem rstep_consts (st : RollingChronicleStore) (op : ROp) :
    (rstep st op).bloom_bits = st.bloom_bits ∧
    (rstep st op).max_nodes = st.max_nodes ∧
    ∀ x ∈ st.bloom, x ∈ (rstep st op).bloom := by
  cases op with
  | addOp tx ps => exact radd_consts st tx ps
  | addBatchOp items =>
    show (st.add_batch items).2.bloom_bits = st.bloom_bits ∧
      (st.add_batch items).2.max_nodes = st.max_nodes ∧
      ∀ x ∈ st.bloom, x ∈ (st.add_batch items).2.bloom
    rw [radd_batch_snd]
    have key : ∀ (l : List (Nat × List Nat)) (s : RollingChronicleStore),
        (l.foldl (fun s item => (s.add item.1 item.2).2) s).bloom_bits = s.bloom_bits ∧
        (l.foldl (fun s item => (s.add item.1 item.2).2) s).max_nodes = s.max_nodes ∧
        ∀ x ∈ s.bloom, x ∈ (l.foldl (fun s item => (s.add item.1 item.2).2) s).bloom := by
      intro l
      induction l with
      | nil =>
        intro s
        exact ⟨rfl, rfl, fun x hx => hx⟩
      | cons hd t ih =>
        intro s
        simp only [List.foldl_cons]
        have h1 := radd_consts s hd.1 hd.2
        have h2 := ih (s.add hd.1 hd.2).2
        exact ⟨h2.1.trans h1.1, h2.2.1.trans h1.2.1,
          fun x hx => h2.2.2 x (h1.2.2 x hx)⟩
    exact key items st

theorem rrunFrom_consts (ops : List ROp) (st : RollingChronicleStore) :
    (rrunFrom st ops).bloom_bits = st.bloom_bits ∧
    (rrunFrom st ops).max_nodes = st.max_nodes ∧
    ∀ x ∈ st.bloom, x ∈ (rrunFrom st ops).bloom := by
  induction ops generalizing st with
  | nil => exact ⟨rfl, rfl, fun x hx => hx⟩
  | cons hd t ih =>
    show (rrunFrom (rstep st hd) t).bloom_bits = _ ∧ _
    have h1 := rstep_consts st hd
    have h2 := ih (rstep st hd)
    exact ⟨h2.1.trans h1.1, h2.2.1.trans h1.2.1, fun x hx => h2.2.2 x (h1.2.2 x hx)⟩

theorem rloop_frozen (pt : List Nat) (s0 : RollingChronicleStore) :
    (pt.foldl (fun (s : RollingChronicleStore) p =>
      match alookup s.child_count p with
      | none => s
      | some prev =>
        { s with child_count := aset s.child_count p (prev + 1),
                 tips := if prev = 0 then sdel s.tips p else s.tips }) s0).order = s0.order ∧
    (pt.foldl (fun (s : RollingChronicleStore) p =>
      match alookup s.child_count p with
      | none => s
      | some prev =>
        { s with child_count := aset s.child_count p (prev + 1),
                 tips := if prev = 0 then sdel s.tips p else s.tips }) s0).parents
      = s0.parents := by
  refine foldl_preserve (fun s => s.order = s0.order ∧ s.parents = s0.parents)
    _ pt s0 (fun s a _ hs => ?_) ⟨rfl, rfl⟩
  rcases hm : alookup s.child_count a with _ | prev
  · exact hs
  · exact hs

theorem bloom_maybe_has_of_mem (st : RollingChronicleStore) (k : Nat)
    (h : ∀ h2 ∈ bloom_hashes st.bloom_bits k, h2 ∈ st.bloom) :
    st.bloom_maybe_has k = true := by
  simp only [RollingChronicleStore.bloom_maybe_has, List.all_eq_true]
  intro x hx
  simpa using h x hx

theorem radd_accepted_bloom (st : RollingChronicleStore) (tx : Nat) (ps : List Nat)
    (hw : GoodR st) (hacc : (st.add tx ps).1.1 = true) :
    ∀ h ∈ bloom_hashes (st.add tx ps).2.bloom_bits tx, h ∈ (st.add tx ps).2.bloom := by
  by_cases h1 : (alookup st.parents tx).isSome
  · rw [radd_already st tx ps h1]
    exact hw.bloomRes tx h1
  · by_cases h2 : rmiss st (rptOf ps) = []
    · rw [radd_accept st tx ps h1 h2]
      intro h hh
      simp only [RollingChronicleStore.evict_if_needed] at hh ⊢
      have hev := evictAux_consts (raddPre st tx (rptOf ps)).order.length
        (raddPre st tx (rptOf ps))
      rw [hev.1]
      rw [hev.2.1] at hh
      simp only [raddPre] at hh ⊢
      have hpre := rloop_consts (rptOf ps)
        (RollingChronicleStore.bloom_add
          { st with parents := aset st.parents tx (rptOf ps),
                    child_count := aset st.child_count tx 0,
                    tips := sadd st.tips tx, order := st.order ++ [tx] } tx)
      rw [hpre.1]
      rw [hpre.2.1] at hh
      simp only [RollingChronicleStore.bloom_add] at hh ⊢
      exact mem_foldl_sadd _ _ h hh
    · rw [radd_missing st tx ps h1 (by simpa using h2)] at hacc
      simp at hacc

theorem evictAux_last_survives : ∀ (fuel : Nat) (st : RollingChronicleStore)
    (l : List Nat) (tx : Nat), st.order = l ++ [tx] → root_key ∈ l → tx ∉ l →
    (akeys st.parents).Nodup → (alookup st.parents tx).isSome →
    (alookup (RollingChronicleStore.evictAux fuel st).parents tx).isSome := by
  intro fuel
  induction fuel with
  | zero =>
    intro st l tx _ _ _ _ hres
    exact hres
  | succ f ih =>
    intro st l tx horder hroot htxl hnd hres
    rw [RollingChronicleStore.evictAux]
    by_cases hc : st.max_nodes < st.order.length
    · rw [if_pos hc]
      split
      · exact hres
      · rename_i old rest ho
        rcases l with _ | ⟨h0, l2⟩
        · simp at hroot
        · have hcons : old = h0 ∧ rest = l2 ++ [tx] := by
            have : old :: rest = h0 :: (l2 ++ [tx]) := by
              rw [← ho, horder]
              rfl
            exact ⟨(List.cons.injEq _ _ _ _ ▸ this).1, (List.cons.injEq _ _ _ _ ▸ this).2⟩
          obtain ⟨hold, hrest⟩ := hcons
          by_cases hr : old = root_key
          · rw [if_pos hr]
            exact hres
          · rw [if_neg hr]
            have htxold : tx ≠ old := by
              intro h
              rw [hold] at h
              exact htxl (h ▸ List.mem_cons_self h0 l2)
            refine ih _ l2 tx ?_ ?_ ?_ ?_ ?_
            · show rest = l2 ++ [tx]
              exact hrest
            · have : root_key ∈ h0 :: l2 := hroot
              rcases List.mem_cons.mp this with h | h
              · exact absurd (hold.trans h.symm) hr
              · exact h
            · intro h
              exact htxl (List.mem_cons_of_mem h0 h)
            · show (akeys (apop st.parents old)).Nodup
              rw [akeys_apop]
              exact nodup_sdel _ old hnd
            · show (alookup (apop st.parents old) tx).isSome
              rw [alookup_apop_ne st.parents old tx htxold]
              exact hres
    · rw [if_neg hc]
      exact hres

theorem radd_idem (st : RollingChronicleStore) (tx : Nat) (ps : List Nat)
    (hw : GoodR st) (hacc : (st.add tx ps).1.1 = true) :
    (alookup (st.add tx ps).2.parents tx).isSome := by
  by_cases h1 : (alookup st.parents tx).isSome
  · rw [radd_already st tx ps h1]
    exact h1
  · by_cases h2 : rmiss st (rptOf ps) = []
    · rw [radd_accept st tx ps h1 h2]
      simp only [RollingChronicleStore.evict_if_needed]
      have hfr := rloop_frozen (rptOf ps)
        (RollingChronicleStore.bloom_add
          { st with parents := aset st.parents tx (rptOf ps),
                    child_count := aset st.child_count tx 0,
                    tips := sadd st.tips tx, order := st.order ++ [tx] } tx)
      have htxord : tx ∉ st.order := by
        rw [hw.ordMem tx]
        simpa using h1
      have htxnone : alookup st.parents tx = none := by simpa using h1
      refine evictAux_last_survives _ _ st.order tx ?_ hw.rootOrd htxord ?_ ?_
      · show (raddPre st tx (rptOf ps)).order = st.order ++ [tx]
        simp only [raddPre]
        rw [hfr.1]
        rfl
      · show (akeys (raddPre st tx (rptOf ps)).parents).Nodup
        simp only [raddPre]
        rw [hfr.2]
        show (akeys (aset st.parents tx (rptOf ps))).Nodup
        rw [akeys_aset_new st.parents tx (rptOf ps) htxnone]
        refine nodup_append_single _ tx hw.parNodup ?_
        rw [mem_akeys]
        simp [htxnone]
      · show (alookup (raddPre st tx (rptOf ps)).parents tx).isSome
        simp only [raddPre]
        rw [hfr.2]
        show (alookup (aset st.parents tx (rptOf ps)) tx).isSome
        simp [alookup_aset_self]
    · rw [radd_missing st tx ps h1 (by simpa using h2)] at hacc
      simp at hacc

/-! ## The resident-size bound of the rolling ledger (max_nodes + 1 slack) -/

def BoundR (st : RollingChronicleStore) : Prop :=
  st.order.length ≤ st.max_nodes + 1 ∧
  (st.order.length = st.max_nodes + 1 → st.order.head? ≠ some root_key)

theorem evictAux_bound : ∀ (fuel : Nat) (st : RollingChronicleStore),
    st.order.length ≤ fuel → 1 ≤ st.max_nodes → st.order.Nodup →
    root_key ∈ st.order → st.order.length ≤ st.max_nodes + 2 →
    (st.order.length = st.max_nodes + 2 → st.order.head? ≠ some root_key) →
    (RollingChronicleStore.evictAux fuel st).order.length ≤ st.max_nodes + 1 ∧
    ((RollingChronicleStore.evictAux fuel st).order.length = st.max_nodes + 1 →
      (RollingChronicleStore.evictAux fuel st).order.head? ≠ some root_key) := by
  intro fuel
  induction fuel with
  | zero =>
    intro st hfuel _ _ hroot _ _
    have : st.order = [] := List.eq_nil_of_length_eq_zero (Nat.le_zero.mp hfuel)
    rw [this] at hroot
    simp at hroot
  | succ f ih =>
    intro st hfuel hmax hnd hroot hlen hhead
    rw [RollingChronicleStore.evictAux]
    by_cases hc : st.max_nodes < st.order.length
    · rw [if_pos hc]
      split
      · rename_i ho
        rw [ho] at hroot
        simp at hroot
      · rename_i old rest ho
        by_cases hr : old = root_key
        · rw [if_pos hr]
          have hlen2 : st.order.length ≠ st.max_nodes + 2 := by
            intro h
            exact hhead h (by rw [ho, hr]; rfl)
          have hlen3 : st.order.length = st.max_nodes + 1 := by omega
          have hrestlen : rest.length = st.max_nodes := by
            rw [ho] at hlen3
            simpa using hlen3
          constructor
          · show (rest ++ [old]).length ≤ st.max_nodes + 1
            simp [hrestlen]
          · intro _
            show (rest ++ [old]).head? ≠ some root_key
            rcases hr0 : rest with _ | ⟨r0, rtail⟩
            · rw [hr0] at hrestlen
              simp at hrestlen
              omega
            · have hr0mem : r0 ∈ rest := by
                rw [hr0]
                exact List.mem_cons_self r0 rtail
              have : r0 ≠ root_key := by
                intro h
                have hordnd : (old :: rest).Nodup := ho ▸ hnd
                exact (List.nodup_cons.mp hordnd).1 (hr.symm ▸ h ▸ hr0mem)
              simp [hr0, this]
        · rw [if_neg hr]
          have hordnd : (old :: rest).Nodup := ho ▸ hnd
          have hrootrest : root_key ∈ rest := by
            have hmem : root_key ∈ old :: rest := ho ▸ hroot
            rcases List.mem_cons.mp hmem with h | h
            · exact absurd h.symm hr
            · exact h
          have hlenrest : rest.length + 1 ≤ st.max_nodes + 2 := by
            rw [ho] at hlen
            simpa using hlen
          have hfuelrest : rest.length ≤ f := by
            rw [ho] at hfuel
            simpa using hfuel
          exact ih { st with order := rest, parents := apop st.parents old, child_count := apop st.child_count old, tips := sdel st.tips old } hfuelrest hmax (List.nodup_cons.mp hordnd).2 hrootrest (by show rest.length ≤ st.max_nodes + 2; omega) (by intro habs; exfalso; have habs2 : rest.length = st.max_nodes + 2 := habs; omega)
    · rw [if_neg hc]
      push_neg at hc
      constructor
      · omega
      · intro h
        omega

theorem radd_bound (st : RollingChronicleStore) (tx : Nat) (ps : List Nat)
    (hw : GoodR st) (hmax : 1 ≤ st.max_nodes) (hb : BoundR st) :
    BoundR (st.add tx ps).2 := by
  by_cases h1 : (alookup st.parents tx).isSome
  · rw [radd_already st tx ps h1]
    exact hb
  · by_cases h2 : rmiss st (rptOf ps) = []
    · rw [radd_accept st tx ps h1 h2]
      have hfr := rloop_frozen (rptOf ps)
        (RollingChronicleStore.bloom_add
          { st with parents := aset st.parents tx (rptOf ps),
                    child_count := aset st.child_count tx 0,
                    tips := sadd st.tips tx, order := st.order ++ [tx] } tx)
      have horder : (raddPre st tx (rptOf ps)).order = st.order ++ [tx] := by
        simp only [raddPre]
        rw [hfr.1]
        rfl
      have hmaxpre : (raddPre st tx (rptOf ps)).max_nodes = st.max_nodes := by
        simp only [raddPre]
        rw [(rloop_consts (rptOf ps) _).2.2]
        rfl
      have htxord : tx ∉ st.order := by
        rw [hw.ordMem tx]
        simpa using h1
      have hordne : st.order ≠ [] := by
        intro h
        have := hw.rootOrd
        rw [h] at this
        simp at this
      have hev := evictAux_bound (raddPre st tx (rptOf ps)).order.length
        (raddPre st tx (rptOf ps)) (Nat.le_refl _)
        (by rw [hmaxpre]; exact hmax)
        (by rw [horder]; exact nodup_append_single _ tx hw.ordNodup htxord)
        (by rw [horder]; exact List.mem_append.2 (Or.inl hw.rootOrd))
        (by
          rw [horder, hmaxpre]
          simp only [List.length_append, List.length_singleton]
          have := hb.1
          omega)
        (by
          rw [horder, hmaxpre]
          intro habs
          simp only [List.length_append, List.length_singleton] at habs
          have hst : st.order.length = st.max_nodes + 1 := by omega
          have := hb.2 hst
          rwa [show (st.order ++ [tx]).head? = st.order.head? by
            rcases ho : st.order with _ | ⟨a, t⟩
            · exact absurd ho hordne
            · rfl])
      have hevc := evictAux_consts (raddPre st tx (rptOf ps)).order.length
        (raddPre st tx (rptOf ps))
      have hBmax : ((raddPre st tx (rptOf ps)).evict_if_needed).max_nodes = st.max_nodes := by
        simp only [RollingChronicleStore.evict_if_needed]
        rw [hevc.2.2, hmaxpre]
      rw [hmaxpre] at hev
      refine ⟨?_, ?_⟩
      · rw [hBmax]
        simp only [RollingChronicleStore.evict_if_needed]
        exact hev.1
      · rw [hBmax]
        intro h
        simp only [RollingChronicleStore.evict_if_needed] at h ⊢
        exact hev.2 h
    · rw [radd_missing st tx ps h1 (by simpa using h2)]
      exact hb

theorem goodR_bound_run (max_nodes : Nat) (hm : 1 ≤ max_nodes) (ops : List ROp) :
    GoodR (rrun max_nodes ops) ∧ BoundR (rrun max_nodes ops) ∧
    (rrun max_nodes ops).max_nodes = max_nodes := by
  refine foldl_preserve
    (fun s => GoodR s ∧ BoundR s ∧ s.max_nodes = max_nodes) rstep ops
    (RollingChronicleStore.init max_nodes) (fun s op _ h => ?_) ⟨goodR_init max_nodes, ?_, rfl⟩
  · obtain ⟨hg, hb, hmn⟩ := h
    refine ⟨goodR_step s op hg, ?_, (rstep_consts s op).2.1.trans hmn⟩
    cases op with
    | addOp tx ps => exact radd_bound s tx ps hg (hmn ▸ hm) hb
    | addBatchOp items =>
      show BoundR (s.add_batch items).2
      rw [radd_batch_snd]
      have key := foldl_preserve
        (fun s2 => GoodR s2 ∧ BoundR s2 ∧ s2.max_nodes = max_nodes)
        (fun s2 item => (s2.add item.1 item.2).2) items s
        (fun s2 a _ h2 =>
          ⟨goodR_add s2 a.1 a.2 h2.1,
           radd_bound s2 a.1 a.2 h2.1 (h2.2.2 ▸ hm) h2.2.1,
           (radd_consts s2 a.1 a.2).2.1.trans h2.2.2⟩)
        ⟨hg, hb, hmn⟩
      exact key.2.1
  · constructor
    · show (RollingChronicleStore.init max_nodes).order.length ≤
        (RollingChronicleStore.init max_nodes).max_nodes + 1
      simp [RollingChronicleStore.init, RollingChronicleStore.bloom_add]
    · intro h
      exfalso
      have h2 : 1 = max_nodes + 1 := by
        simpa [RollingChronicleStore.init, RollingChronicleStore.bloom_add] using h
      omega

theorem parents_length_eq_order (st : RollingChronicleStore) (hw : GoodR st) :
    st.parents.length = st.order.length := by
  have hperm : (akeys st.parents).Perm st.order :=
    (List.perm_ext_iff_of_nodup hw.parNodup hw.ordNodup).2
      (fun a => by
        rw [mem_akeys]
        exact (hw.ordMem a).symm)
  have h1 : (akeys st.parents).length = st.parents.length := List.length_map _ _
  rw [← h1, hperm.length_eq]

/-! ## Child counts only grow during the parent loop and survive eviction for
still-resident ids -/

theorem strict_count_mono : ∀ (l : List String) (s : ChronicleStore) (k : String),
    alookupD s.child_count k 0 ≤
    alookupD ((l.foldl (fun (s : ChronicleStore) p =>
      { parents := s.parents,
        child_count := aset s.child_count p (alookupD s.child_count p 0 + 1),
        tips := if alookupD s.child_count p 0 = 0 ∧ p ∈ s.tips then sdel s.tips p
                else s.tips }) s)).child_count k 0 := by
  intro l
  induction l with
  | nil =>
    intro s k
    exact Nat.le_refl _
  | cons hd t ih =>
    intro s k
    simp only [List.foldl_cons]
    refine Nat.le_trans ?_ (ih _ k)
    by_cases hk : k = hd
    · subst hk
      show alookupD s.child_count k 0 ≤
        alookupD (aset s.child_count k (alookupD s.child_count k 0 + 1)) k 0
      rw [alookupD_aset_self]
      omega
    · show alookupD s.child_count k 0 ≤
        alookupD (aset s.child_count hd (alookupD s.child_count hd 0 + 1)) k 0
      rw [alookupD_aset_ne s.child_count hd k _ _ hk]

theorem strict_count_pos (pt : List String) (s0 : ChronicleStore) (p : String)
    (hp : p ∈ pt) :
    1 ≤ alookupD ((pt.foldl (fun (s : ChronicleStore) q =>
      { parents := s.parents,
        child_count := aset s.child_count q (alookupD s.child_count q 0 + 1),
        tips := if alookupD s.child_count q 0 = 0 ∧ q ∈ s.tips then sdel s.tips q
                else s.tips }) s0)).child_count p 0 := by
  obtain ⟨l1, l2, rfl⟩ := List.append_of_mem hp
  rw [List.foldl_append, List.foldl_cons]
  refine Nat.le_trans ?_ (strict_count_mono l2 _ p)
  show 1 ≤ alookupD (aset _ p (alookupD _ p 0 + 1)) p 0
  rw [alookupD_aset_self]
  omega

theorem rolling_count_mono : ∀ (l : List Nat) (s : RollingChronicleStore) (k : Nat),
    alookupD s.child_count k 0 ≤
    alookupD ((l.foldl (fun (s : RollingChronicleStore) p =>
      match alookup s.child_count p with
      | none => s
      | some prev =>
        { s with child_count := aset s.child_count p (prev + 1),
                 tips := if prev = 0 then sdel s.tips p else s.tips }) s)).child_count k 0 := by
  intro l
  induction l with
  | nil =>
    intro s k
    exact Nat.le_refl _
  | cons hd t ih =>
    intro s k
    simp only [List.foldl_cons]
    refine Nat.le_trans ?_ (ih _ k)
    rcases hm : alookup s.child_count hd with _ | prev
    · exact Nat.le_refl _
    · show alookupD s.child_count k 0 ≤
        alookupD (aset s.child_count hd (prev + 1)) k 0
      by_cases hk : k = hd
      · subst hk
        rw [alookupD_aset_self]
        rw [show alookupD s.child_count k 0 = prev by simp [alookupD, hm]]
        omega
      · rw [alookupD_aset_ne s.child_count hd k _ _ hk]

theorem rolling_count_pos (pt : List Nat) (s0 : RollingChronicleStore) (p : Nat)
    (hp : p ∈ pt) (hcc : (alookup s0.child_count p).isSome) :
    1 ≤ alookupD ((pt.foldl (fun (s : RollingChronicleStore) q =>
      match alookup s.child_count q with
      | none => s
      | some prev =>
        { s with child_count := aset s.child_count q (prev + 1),
                 tips := if prev = 0 then sdel s.tips q else s.tips }) s0)).child_count p 0 := by
  obtain ⟨l1, l2, rfl⟩ := List.append_of_mem hp
  rw [List.foldl_append, List.foldl_cons]
  have hccmid : (alookup ((l1.foldl (fun (s : RollingChronicleStore) q =>
      match alookup s.child_count q with
      | none => s
      | some prev =>
        { s with child_count := aset s.child_count q (prev + 1),
                 tips := if prev = 0 then sdel s.tips q else s.tips }) s0)).child_count p).isSome := by
    refine foldl_preserve (fun s => (alookup s.child_count p).isSome) _ l1 s0
      (fun s a _ hs => ?_) hcc
    rcases hm : alookup s.child_count a with _ | prev
    · exact hs
    · show (alookup (aset s.child_count a (prev + 1)) p).isSome
      by_cases hk : p = a
      · subst hk
        simp [alookup_aset_self]
      · rw [alookup_aset_ne s.child_count a p _ hk]
        exact hs
  generalize hmid : (l1.foldl (fun (s : RollingChronicleStore) q =>
      match alookup s.child_count q with
      | none => s
      | some prev =>
        { s with child_count := aset s.child_count q (prev + 1),
                 tips := if prev = 0 then sdel s.tips q else s.tips }) s0) = smid at hccmid ⊢
  rcases hm : alookup smid.child_count p with _ | prev
  · rw [hm] at hccmid
    simp at hccmid
  · refine Nat.le_trans ?_ (rolling_count_mono l2 _ p)
    show 1 ≤ alookupD (aset smid.child_count p (prev + 1)) p 0
    rw [alookupD_aset_self]
    omega

theorem sloop_parents_frozen (pt : List String) (s0 : ChronicleStore) :
    ((pt.foldl (fun (s : ChronicleStore) p =>
      { parents := s.parents,
        child_count := aset s.child_count p (alookupD s.child_count p 0 + 1),
        tips := if alookupD s.child_count p 0 = 0 ∧ p ∈ s.tips then sdel s.tips p
                else s.tips }) s0)).parents = s0.parents := by
  refine foldl_preserve (fun (s : ChronicleStore) => s.parents = s0.parents)
    (fun (s : ChronicleStore) p =>
      { parents := s.parents,
        child_count := aset s.child_count p (alookupD s.child_count p 0 + 1),
        tips := if alookupD s.child_count p 0 = 0 ∧ p ∈ s.tips then sdel s.tips p
                else s.tips })
    pt s0 (fun s a _ hs => ?_) rfl
  exact hs

theorem rloop_ccNodup (pt : List Nat) (s0 : RollingChronicleStore)
    (h0 : (akeys s0.child_count).Nodup) :
    (akeys ((pt.foldl (fun (s : RollingChronicleStore) p =>
      match alookup s.child_count p with
      | none => s
      | some prev =>
        { s with child_count := aset s.child_count p (prev + 1),
                 tips := if prev = 0 then sdel s.tips p else s.tips }) s0)).child_count).Nodup := by
  refine foldl_preserve (fun s => (akeys s.child_count).Nodup) _ pt s0
    (fun s a _ hs => ?_) h0
  rcases hm : alookup s.child_count a with _ | prev
  · exact hs
  · show (akeys (aset s.child_count a (prev + 1))).Nodup
    rw [akeys_aset_mem s.child_count a _ (by simp [hm])]
    exact hs

theorem evictAux_count_pres : ∀ (fuel : Nat) (st : RollingChronicleStore) (k : Nat),
    (akeys st.parents).Nodup → (akeys st.child_count).Nodup →
    (alookup (RollingChronicleStore.evictAux fuel st).parents k).isSome →
    alookup (RollingChronicleStore.evictAux fuel st).child_count k
      = alookup st.child_count k ∧ (alookup st.parents k).isSome := by
  intro fuel
  induction fuel with
  | zero =>
    intro st k _ _ hres
    exact ⟨rfl, hres⟩
  | succ f ih =>
    intro st k hndP hndC hres
    rw [RollingChronicleStore.evictAux] at hres ⊢
    by_cases hc : st.max_nodes < st.order.length
    · rw [if_pos hc] at hres ⊢
      split at hres
      · exact ⟨rfl, hres⟩
      · rename_i old rest ho
        by_cases hr : old = root_key
        · rw [if_pos hr] at hres ⊢
          exact ⟨rfl, hres⟩
        · rw [if_neg hr] at hres ⊢
          have hih := ih _ k (by rw [akeys_apop]; exact nodup_sdel _ old hndP)
            (by rw [akeys_apop]; exact nodup_sdel _ old hndC) hres
          have hkold : k ≠ old := by
            intro h
            subst h
            rw [alookup_apop_self st.parents k hndP] at hih
            simp at hih
          rw [alookup_apop_ne st.child_count old k hkold] at hih
          rw [alookup_apop_ne st.parents old k hkold] at hih
          exact hih
    · rw [if_neg hc] at hres ⊢
      exact ⟨rfl, hres⟩

theorem strict_child_removed (st : ChronicleStore) (tx : String) (ps : List String)
    (p : String) (hw : GoodS st) (hfresh : alookup st.parents tx = none)
    (hp : p ∈ ptOf ps) (hres : (alookup st.parents p).isSome)
    (hacc : (st.add tx ps).1.1 = true) :
    p ∉ (st.add tx ps).2.tips := by
  have h1 : ¬ (alookup st.parents tx).isSome = true := by simp [hfresh]
  by_cases h2 : st.get_missing_parents (ptOf ps) = []
  · rw [add_accept st tx ps h1 h2]
    intro hmem
    have hwA : GoodS (addAcceptState st tx (ptOf ps)) := by
      have hg := goodS_add st tx ps hw
      rwa [add_accept st tx ps h1 h2] at hg
    have hzero := (hwA.tipIff p (hwA.tipsRes p hmem)).1 hmem
    have hpos := strict_count_pos (ptOf ps)
      { parents := aset st.parents tx (ptOf ps), child_count := aset st.child_count tx 0,
        tips := st.tips } p hp
    have hzero2 : alookupD ((ptOf ps).foldl (fun (s : ChronicleStore) q =>
      { parents := s.parents,
        child_count := aset s.child_count q (alookupD s.child_count q 0 + 1),
        tips := if alookupD s.child_count q 0 = 0 ∧ q ∈ s.tips then sdel s.tips q
                else s.tips })
      { parents := aset st.parents tx (ptOf ps), child_count := aset st.child_count tx 0,
        tips := st.tips }).child_count p 0 = 0 := hzero
    omega
  · rw [add_missing st tx ps h1 h2] at hacc
    simp at hacc

theorem rolling_child_removed (st : RollingChronicleStore) (tx : Nat) (ps : List Nat)
    (p : Nat) (hw : GoodR st) (hfresh : alookup st.parents tx = none)
    (hp : p ∈ rptOf ps) (hres : (alookup st.parents p).isSome)
    (hacc : (st.add tx ps).1.1 = true) :
    p ∉ (st.add tx ps).2.tips := by
  have h1 : ¬ (alookup st.parents tx).isSome = true := by simp [hfresh]
  by_cases h2 : rmiss st (rptOf ps) = []
  · rw [radd_accept st tx ps h1 h2]
    intro hmem
    have hwA : GoodR ((raddPre st tx (rptOf ps)).evict_if_needed) := by
      have hg := goodR_add st tx ps hw
      rwa [radd_accept st tx ps h1 h2] at hg
    have hresA := hwA.tipsRes p hmem
    have hzero := (hwA.tipIff p hresA).1 hmem
    have hne : p ≠ tx := by
      intro h
      rw [h, hfresh] at hres
      simp at hres
    have hfr := rloop_frozen (rptOf ps)
      (RollingChronicleStore.bloom_add
        { st with parents := aset st.parents tx (rptOf ps),
                  child_count := aset st.child_count tx 0,
                  tips := sadd st.tips tx, order := st.order ++ [tx] } tx)
    have hndP : (akeys (raddPre st tx (rptOf ps)).parents).Nodup := by
      simp only [raddPre]
      rw [hfr.2]
      show (akeys (aset st.parents tx (rptOf ps))).Nodup
      rw [akeys_aset_new st.parents tx (rptOf ps) hfresh]
      refine nodup_append_single _ tx hw.parNodup ?_
      rw [mem_akeys]
      simp [hfresh]
    have hccnone : alookup st.child_count tx = none := by
      have hd := hw.ccDom tx
      rw [hfresh] at hd
      simp at hd
      simpa using hd
    have hndC : (akeys (raddPre st tx (rptOf ps)).child_count).Nodup := by
      simp only [raddPre]
      refine rloop_ccNodup (rptOf ps) _ ?_
      show (akeys (aset st.child_count tx 0)).Nodup
      rw [akeys_aset_new st.child_count tx 0 hccnone]
      refine nodup_append_single _ tx hw.ccNodup ?_
      rw [mem_akeys]
      simp [hccnone]
    have hcp := evictAux_count_pres (raddPre st tx (rptOf ps)).order.length
      (raddPre st tx (rptOf ps)) p hndP hndC
      (by
        simp only [RollingChronicleStore.evict_if_needed] at hresA
        exact hresA)
    have hccp : (alookup (aset st.child_count tx 0) p).isSome := by
      rw [alookup_aset_ne st.child_count tx p 0 hne]
      exact (hw.ccDom p).1 hres
    have hpos := rolling_count_pos (rptOf ps)
      (RollingChronicleStore.bloom_add
        { st with parents := aset st.parents tx (rptOf ps),
                  child_count := aset st.child_count tx 0,
                  tips := sadd st.tips tx, order := st.order ++ [tx] } tx) p hp hccp
    have hzero2 : alookupD (raddPre st tx (rptOf ps)).child_count p 0 = 0 := by
      have hz : alookupD ((raddPre st tx (rptOf ps)).evict_if_needed).child_count p 0 = 0 :=
        hzero
      simp only [RollingChronicleStore.evict_if_needed] at hz
      rw [alookupD, hcp.1] at hz
      exact hz
    have hpos2 : 1 ≤ alookupD (raddPre st tx (rptOf ps)).child_count p 0 := hpos
    omega
  · rw [radd_missing st tx ps h1 (by simpa using h2)] at hacc
    simp at hacc

theorem strict_add_idem (st : ChronicleStore) (tx : String) (ps : List String)
    (hacc : (st.add tx ps).1.1 = true) :
    (alookup (st.add tx ps).2.parents tx).isSome := by
  by_cases h1 : (alookup st.parents tx).isSome
  · rw [add_already st tx ps h1]
    exact h1
  · by_cases h2 : st.get_missing_parents (ptOf ps) = []
    · rw [add_accept st tx ps h1 h2]
      show (alookup (addAcceptState st tx (ptOf ps)).parents tx).isSome
      simp only [addAcceptState]
      rw [sloop_parents_frozen]
      show (alookup (aset st.parents tx (ptOf ps)) tx).isSome
      simp [alookup_aset_self]
    · rw [add_missing st tx ps h1 h2] at hacc
      simp at hacc

/-! ## Router lemmas: ring construction is sorted, bisect_right finds the
first strictly greater key -/

theorem mem_insort : ∀ (l : List Nat) (k x : Nat), x ∈ insort l k ↔ x ∈ l ∨ x = k := by
  intro l
  induction l with
  | nil =>
    intro k x
    simp [insort]
  | cons hd t ih =>
    intro k x
    by_cases h : hd ≤ k
    · simp only [insort, if_pos h, List.mem_cons, ih]
      tauto
    · simp only [insort, if_neg h, List.mem_cons]
      tauto

theorem insort_ne_nil (l : List Nat) (k : Nat) : insort l k ≠ [] := by
  cases l with
  | nil => simp [insort]
  | cons hd t =>
    by_cases h : hd ≤ k <;> simp [insort, h]

theorem sorted_insort (l : List Nat) (k : Nat) (h : l.Sorted (· ≤ ·)) :
    (insort l k).Sorted (· ≤ ·) := by
  induction l with
  | nil => simp [insort]
  | cons x t ih =>
    rw [List.sorted_cons] at h
    obtain ⟨hx, ht⟩ := h
    by_cases hxk : x ≤ k
    · simp only [insort, if_pos hxk]
      rw [List.sorted_cons]
      refine ⟨?_, ih ht⟩
      intro b hb
      rcases (mem_insort t k b).1 hb with hb | hb
      · exact hx b hb
      · exact hb ▸ hxk
    · simp only [insort, if_neg hxk]
      rw [List.sorted_cons]
      refine ⟨?_, List.sorted_cons.mpr ⟨hx, ht⟩⟩
      intro b hb
      have hkx : k ≤ x := Nat.le_of_lt (Nat.lt_of_not_le hxk)
      rcases List.mem_cons.mp hb with hb | hb
      · exact hb ▸ hkx
      · exact Nat.le_trans hkx (hx b hb)

theorem bisect_right_le (l : List Nat) (k : Nat) : bisect_right l k ≤ l.length := by
  induction l with
  | nil => simp [bisect_right]
  | cons hd t ih =>
    by_cases h : hd ≤ k <;> simp [bisect_right, h] <;> omega

theorem bisect_right_spec (l : List Nat) (k : Nat) (hs : l.Sorted (· ≤ ·)) :
    (bisect_right l k = l.length ∧ l.find? (fun x => decide (k < x)) = none) ∨
    (bisect_right l k < l.length ∧
      l.find? (fun x => decide (k < x)) = some (l.getD (bisect_right l k) 0)) := by
  induction l with
  | nil => exact Or.inl ⟨rfl, rfl⟩
  | cons x t ih =>
    rw [List.sorted_cons] at hs
    obtain ⟨hx, ht⟩ := hs
    by_cases hxk : x ≤ k
    · have hneg : ¬ (k < x) := Nat.not_lt.mpr hxk
      rcases ih ht with ⟨hb, hf⟩ | ⟨hb, hf⟩
      · refine Or.inl ⟨?_, ?_⟩
        · simp [bisect_right, hxk, hb]
        · rw [List.find?_cons_of_neg _ (by simpa using hneg)]
          exact hf
      · refine Or.inr ⟨?_, ?_⟩
        · simp only [bisect_right, if_pos hxk, List.length_cons]
          omega
        · rw [List.find?_cons_of_neg _ (by simpa using hneg)]
          rw [hf]
          simp [bisect_right, hxk]
    · have hpos : k < x := Nat.lt_of_not_le hxk
      refine Or.inr ⟨?_, ?_⟩
      · simp [bisect_right, hxk]
      · rw [List.find?_cons_of_pos _ (by simpa using hpos)]
        simp [bisect_right, hxk]

theorem route_eq_firstGT (m : ShardManager) (hs : m.sorted_keys.Sorted (· ≤ ·))
    (hre : m.ring = [] ↔ m.sorted_keys = []) (tx : String) :
    m.get_shard_for_transaction tx = routeFirstGT m tx := by
  by_cases hr : m.ring.isEmpty
  · simp [ShardManager.get_shard_for_transaction, routeFirstGT, hr]
  · simp only [ShardManager.get_shard_for_transaction, routeFirstGT]
    rw [if_neg hr, if_neg hr]
    rcases bisect_right_spec m.sorted_keys (sha256Int tx) hs with ⟨hb, hf⟩ | ⟨hb, hf⟩
    · rw [hf, if_pos hb]
      rcases hsk : m.sorted_keys with _ | ⟨x, t⟩
      · exfalso
        apply hr
        rw [List.isEmpty_iff, hre]
        exact hsk
      · simp
    · rw [hf, if_neg (Nat.ne_of_lt hb)]

theorem foldl_const {α β : Type} : ∀ (l : List β) (acc : α),
    l.foldl (fun a _ => a) acc = acc := by
  intro l
  induction l with
  | nil =>
    intro acc
    rfl
  | cons hd t ih =>
    intro acc
    simp only [List.foldl_cons]
    exact ih acc

theorem ring_zero_shards (r : Nat) : initialize_ring 0 r = ([], []) := by
  simp [initialize_ring]

theorem ring_zero_repl (n : Nat) : initialize_ring n 0 = ([], []) := by
  simp only [initialize_ring, List.range_zero, List.foldl_nil]
  exact foldl_const _ _

theorem aset_ne_nil {α β : Type} [DecidableEq α] (l : List (α × β)) (k : α) (v : β) :
    aset l k v ≠ [] := by
  cases l with
  | nil => simp [aset]
  | cons hd t =>
    obtain ⟨k2, v2⟩ := hd
    by_cases hk : k2 = k <;> simp [aset, hk]

/-- One outer iteration of _initialize_ring: insert all virtual nodes of
shard i. Definitionally equal to the inner loop of initialize_ring. -/
def ringStep (r : Nat) (acc : List (Nat × String) × List Nat) (i : Nat) :
    List (Nat × String) × List Nat :=
  (List.range r).foldl (fun acc3 rr =>
    (aset acc3.1 (sha256Int (shard_name i ++ ":" ++ toString rr)) (shard_name i),
     insort acc3.2 (sha256Int (shard_name i ++ ":" ++ toString rr)))) acc

theorem ringStep_wf (r i : Nat) (acc : List (Nat × String) × List Nat)
    (h1 : acc.2.Sorted (· ≤ ·)) (h2 : acc.1 = [] ↔ acc.2 = []) :
    (ringStep r acc i).2.Sorted (· ≤ ·) ∧
    ((ringStep r acc i).1 = [] ↔ (ringStep r acc i).2 = []) := by
  refine foldl_preserve (fun a => a.2.Sorted (· ≤ ·) ∧ (a.1 = [] ↔ a.2 = []))
    _ (List.range r) acc (fun a2 rr _ ha2 => ?_) ⟨h1, h2⟩
  exact ⟨sorted_insort _ _ ha2.1,
    iff_of_false (aset_ne_nil _ _ _) (insort_ne_nil _ _)⟩

theorem initialize_ring_wf (n r : Nat) :
    (initialize_ring n r).2.Sorted (· ≤ ·) ∧
    ((initialize_ring n r).1 = [] ↔ (initialize_ring n r).2 = []) := by
  rw [show initialize_ring n r = (List.range n).foldl (ringStep r) ([], []) from rfl]
  refine foldl_preserve (fun a => a.2.Sorted (· ≤ ·) ∧ (a.1 = [] ↔ a.2 = []))
    (ringStep r) (List.range n) ([], []) (fun a i _ ha => ringStep_wf r i a ha.1 ha.2) ?_
  simp

theorem initialize_ring_ne (n r : Nat) (hn : 0 < n) (hr : 0 < r) :
    (initialize_ring n r).2 ≠ [] := by
  rw [show initialize_ring n r = (List.range n).foldl (ringStep r) ([], []) from rfl]
  obtain ⟨n2, rfl⟩ := Nat.exists_eq_succ_of_ne_zero (Nat.pos_iff_ne_zero.mp hn)
  rw [List.range_succ, List.foldl_append, List.foldl_cons, List.foldl_nil]
  obtain ⟨r2, rfl⟩ := Nat.exists_eq_succ_of_ne_zero (Nat.pos_iff_ne_zero.mp hr)
  show (ringStep (r2 + 1) _ n2).2 ≠ []
  simp only [ringStep]
  rw [List.range_succ, List.foldl_append, List.foldl_cons, List.foldl_nil]
  exact insort_ne_nil _ _

/-! ## PoI verification lemmas -/

theorem verify_make (dim : Nat) (thr : ℚ) (tx : String) (vec : List ℚ) (val : String)
    (h : thr ≤ |score_vector dim vec val|) :
    verify thr (make_proof dim tx vec val) = (true, "ok") := by
  simp only [verify, make_proof]
  rw [if_neg (fun hne => hne rfl), if_neg (not_lt.mpr h)]

theorem verify_mismatch (thr : ℚ) (pr : PoIProof)
    (h : sha256Hex (poiPayload pr.validator_id pr.tx_id pr.score) ≠ pr.proof) :
    verify thr pr = (false, "bad_proof") := by
  simp only [verify]
  rw [if_pos h]

theorem payload_eq_of_fmt6 (val tx : String) (s1 s2 : ℚ) (h : fmt6 s1 = fmt6 s2) :
    poiPayload val tx s1 = poiPayload val tx s2 := by
  simp [poiPayload, h]

theorem verify_same_fmt (dim : Nat) (thr : ℚ) (tx val : String) (vec : List ℚ) (s : ℚ)
    (hf : fmt6 s = fmt6 (score_vector dim vec val)) (hs : thr ≤ |s|) :
    verify thr { make_proof dim tx vec val with score := s } = (true, "ok") := by
  simp only [verify, make_proof]
  rw [payload_eq_of_fmt6 val tx s _ hf]
  rw [if_neg (fun hne => hne rfl), if_neg (not_lt.mpr hs)]

/-! ## Claim theorems -/

/-- Claim C2 (counterexample): constructing the shard router with zero shards
does not raise; it silently succeeds with an empty ring, contradicting the
claim that an error is raised at construction and that construction never
succeeds silently with an empty ring. -/
theorem c2_zero_config_counterexample :
    (ShardManager.init 0 3).ring = [] ∧ (ShardManager.init 0 3).sorted_keys = [] ∧
    (ShardManager.init 0 3).num_shards = 0 ∧
    (ShardManager.init 0 3).get_shard_for_transaction "tx" = none := by
  refine ⟨by decide, by decide, by decide, ?_⟩
  simp [ShardManager.get_shard_for_transaction, show (ShardManager.init 0 3).ring = []
    from by decide]

/-- Claim C2 (amended): constructing the shard router with zero shards or zero
replication factor succeeds without error, producing a manager with an empty
ring and empty sorted key list, on which routing returns none for every key. -/
theorem c2_zero_config_amended :
    ∀ (r n : Nat) (k : String),
      (ShardManager.init 0 r).ring = [] ∧ (ShardManager.init 0 r).sorted_keys = [] ∧
      (ShardManager.init n 0).ring = [] ∧ (ShardManager.init n 0).sorted_keys = [] ∧
      (ShardManager.init 0 r).get_shard_for_transaction k = none ∧
      (ShardManager.init n 0).get_shard_for_transaction k = none := by
  intro r n k
  have h1 : (ShardManager.init 0 r).ring = [] := by
    show (initialize_ring 0 r).1 = []
    rw [ring_zero_shards]
  have h2 : (ShardManager.init 0 r).sorted_keys = [] := by
    show (initialize_ring 0 r).2 = []
    rw [ring_zero_shards]
  have h3 : (ShardManager.init n 0).ring = [] := by
    show (initialize_ring n 0).1 = []
    rw [ring_zero_repl]
  have h4 : (ShardManager.init n 0).sorted_keys = [] := by
    show (initialize_ring n 0).2 = []
    rw [ring_zero_repl]
  refine ⟨h1, h2, h3, h4, ?_, ?_⟩ <;>
    simp [ShardManager.get_shard_for_transaction, h1, h3]

/-- Claim C10: on a router whose ring is empty (zero shards or zero
replication), both route and the load-aware route return none for every key
and every probe count, raising no error (both are total functions here). -/
theorem c10_empty_ring_none :
    ∀ (r n : Nat) (k : String) (probe : Nat),
      (ShardManager.init 0 r).get_shard_for_transaction k = none ∧
      (ShardManager.init 0 r).get_shard_for_transaction_load_aware k probe = none ∧
      (ShardManager.init n 0).get_shard_for_transaction k = none ∧
      (ShardManager.init n 0).get_shard_for_transaction_load_aware k probe = none := by
  intro r n k probe
  have h1 : (ShardManager.init 0 r).ring = [] := by
    show (initialize_ring 0 r).1 = []
    rw [ring_zero_shards]
  have h3 : (ShardManager.init n 0).ring = [] := by
    show (initialize_ring n 0).1 = []
    rw [ring_zero_repl]
  refine ⟨?_, ?_, ?_, ?_⟩ <;>
    simp [ShardManager.get_shard_for_transaction,
      ShardManager.get_shard_for_transaction_load_aware, h1, h3]

/-- Claim C3 (amended): route returns the shard owning the first virtual-node
key STRICTLY greater than the hash of the key (bisect_right), wrapping
circularly to the first entry when none is greater; the result is a pure
function of the fixed ring, hence the same shard on every call for the same
key. -/
theorem c3_route_first_greater :
    ∀ (n r : Nat), 0 < n → 0 < r → ∀ (k : String),
      (ShardManager.init n r).get_shard_for_transaction k
        = routeFirstGT (ShardManager.init n r) k := by
  intro n r hn hr k
  have hwf := initialize_ring_wf n r
  exact route_eq_firstGT _ hwf.1 hwf.2 k

theorem c3_route_first_greater_witness :
    (ShardManager.init 1 1).get_shard_for_transaction "x"
      = routeFirstGT (ShardManager.init 1 1) "x" :=
  c3_route_first_greater 1 1 (by decide) (by decide) "x"

/-- Claim C5: in both ledger variants, after every sequence of add / addBatch
operations a resident id is a tip exactly when its child count is 0; and a
fresh accepted add removes each of its resident parents from the tip set. -/
theorem c5_tip_iff_child_count :
    (∀ (ops : List SOp) (id : String), (alookup (srun ops).parents id).isSome →
      (id ∈ (srun ops).tips ↔ alookupD (srun ops).child_count id 0 = 0)) ∧
    (∀ (max_nodes : Nat) (ops : List ROp) (id : Nat),
      (alookup (rrun max_nodes ops).parents id).isSome →
      (id ∈ (rrun max_nodes ops).tips ↔
        alookupD (rrun max_nodes ops).child_count id 0 = 0)) ∧
    (∀ (ops : List SOp) (tx : String) (ps : List String) (p : String),
      alookup (srun ops).parents tx = none → p ∈ ptOf ps →
      (alookup (srun ops).parents p).isSome →
      alookupD (srun ops).child_count p 0 = 0 →
      ((srun ops).add tx ps).1.1 = true → p ∉ ((srun ops).add tx ps).2.tips) ∧
    (∀ (max_nodes : Nat) (ops : List ROp) (tx : Nat) (ps : List Nat) (p : Nat),
      alookup (rrun max_nodes ops).parents tx = none → p ∈ rptOf ps →
      (alookup (rrun max_nodes ops).parents p).isSome →
      alookupD (rrun max_nodes ops).child_count p 0 = 0 →
      ((rrun max_nodes ops).add tx ps).1.1 = true →
      p ∉ ((rrun max_nodes ops).add tx ps).2.tips) :=
  ⟨fun ops id h => (goodS_run ops).tipIff id h,
   fun mn ops id h => (goodR_run mn ops).tipIff id h,
   fun ops tx ps p hfresh hp hres _ hacc =>
     strict_child_removed (srun ops) tx ps p (goodS_run ops) hfresh hp hres hacc,
   fun mn ops tx ps p hfresh hp hres _ hacc =>
     rolling_child_removed (rrun mn ops) tx ps p (goodR_run mn ops) hfresh hp hres hacc⟩

theorem c5_tip_iff_witness :
    ("a" ∈ (srun [SOp.addOp "a" []]).tips ↔
      alookupD (srun [SOp.addOp "a" []]).child_count "a" 0 = 0) ∧
    ROOT_ANCHOR ∉ ((srun []).add "b" [ROOT_ANCHOR]).2.tips :=
  ⟨c5_tip_iff_child_count.1 [SOp.addOp "a" []] "a" (by decide),
   c5_tip_iff_child_count.2.2.1 [] "b" [ROOT_ANCHOR] ROOT_ANCHOR (by decide) (by decide)
     (by decide) (by decide) (by decide)⟩

/-- Claim C7: in the strict ledger, for a fresh id and a parent list holding
at least one id that is neither the root anchor nor previously added, add
returns false together with exactly the sublist of missing parents, and the
state is returned completely unchanged. -/
theorem c7_missing_parent_reject :
    ∀ (st : ChronicleStore) (tx : String) (ps : List String) (p : String),
      alookup st.parents tx = none → p ∈ ps → p ≠ ROOT_ANCHOR →
      alookup st.parents p = none →
      st.add tx ps = ((false, st.get_missing_parents ps), st) := by
  intro st tx ps p htx hp hproot hpnone
  have hpse : ¬ ps.isEmpty = true := by
    intro h
    rw [List.isEmpty_iff] at h
    rw [h] at hp
    simp at hp
  have hpt : ptOf ps = ps := by
    rw [ptOf, if_neg hpse]
  have hmiss_ne : st.get_missing_parents ps ≠ [] := by
    intro h
    rw [ChronicleStore.get_missing_parents, List.filter_eq_nil_iff] at h
    have h2 := h p hp
    simp [hproot, hpnone] at h2
  have hres := add_missing st tx ps (by simp [htx]) (by rw [hpt]; exact hmiss_ne)
  rw [hpt] at hres
  exact hres

theorem c7_missing_parent_reject_witness :
    (ChronicleStore.init).add "x" ["never_seen"]
      = ((false, (ChronicleStore.init).get_missing_parents ["never_seen"]),
         ChronicleStore.init) :=
  c7_missing_parent_reject ChronicleStore.init "x" ["never_seen"] "never_seen"
    (by decide) (by decide) (by decide) (by decide)

/-- Claim C8: in both ledger variants an accepted add makes any repeated add
of the same id (with any parent list) return (true, []) and leave the entire
state unchanged; the rolling side is stated over reachable stores since the
root anchor keeps the fresh id from being evicted by its own add. -/
theorem c8_add_idempotent :
    (∀ (st : ChronicleStore) (tx : String) (ps ps2 : List String),
      (st.add tx ps).1.1 = true →
      ((st.add tx ps).2).add tx ps2 = ((true, []), (st.add tx ps).2)) ∧
    (∀ (max_nodes : Nat) (ops : List ROp) (tx : Nat) (ps ps2 : List Nat),
      ((rrun max_nodes ops).add tx ps).1.1 = true →
      (((rrun max_nodes ops).add tx ps).2).add tx ps2
        = ((true, []), ((rrun max_nodes ops).add tx ps).2)) :=
  ⟨fun st tx ps ps2 hacc => add_already _ tx ps2 (strict_add_idem st tx ps hacc),
   fun mn ops tx ps ps2 hacc =>
     radd_already _ tx ps2 (radd_idem (rrun mn ops) tx ps (goodR_run mn ops) hacc)⟩

theorem c8_add_idempotent_witness :
    ((ChronicleStore.init.add "a" []).2).add "a" ["z"]
      = ((true, []), (ChronicleStore.init.add "a" []).2) :=
  c8_add_idempotent.1 ChronicleStore.init "a" [] ["z"] (by decide)

/-- Claim C9: for every rolling ledger with max_nodes at least 1, after every
operation sequence the resident map holds at most max_nodes + 1 ids: eviction
trims to the limit except that a round stopping at the root anchor leaves one
item of slack. -/
theorem c9_resident_bound :
    ∀ (max_nodes : Nat), 1 ≤ max_nodes → ∀ (ops : List ROp),
      (rrun max_nodes ops).parents.length ≤ max_nodes + 1 := by
  intro mn hm ops
  have h := goodR_bound_run mn hm ops
  have hlen := parents_length_eq_order _ h.1
  have hb := h.2.1.1
  rw [h.2.2] at hb
  omega

theorem c9_resident_bound_witness :
    (rrun 1 [ROp.addOp 1 [], ROp.addOp 2 [1], ROp.addOp 3 [2]]).parents.length ≤ 1 + 1 :=
  c9_resident_bound 1 (by decide) [ROp.addOp 1 [], ROp.addOp 2 [1], ROp.addOp 3 [2]]

/-- Claim C6: once an id is accepted by a rolling add, its bloom membership
test returns true after every later operation sequence: acceptance sets all
three derived bits, the bit set only ever grows, and neither the filter nor
its bit width is ever evicted or changed. -/
theorem c6_bloom_monotone :
    ∀ (max_nodes : Nat) (ops : List ROp) (tx : Nat) (ps : List Nat) (ops2 : List ROp),
      ((rrun max_nodes ops).add tx ps).1.1 = true →
      (rrunFrom ((rrun max_nodes ops).add tx ps).2 ops2).bloom_maybe_has tx = true := by
  intro mn ops tx ps ops2 hacc
  have hg := goodR_run mn ops
  have hbits := radd_accepted_bloom (rrun mn ops) tx ps hg hacc
  have hc := rrunFrom_consts ops2 ((rrun mn ops).add tx ps).2
  apply bloom_maybe_has_of_mem
  intro x hx
  rw [hc.1] at hx
  exact hc.2.2 x (hbits x hx)

theorem c6_bloom_monotone_witness :
    (rrunFrom ((rrun 1 []).add 5 []).2 [ROp.addOp 7 []]).bloom_maybe_has 5 = true :=
  c6_bloom_monotone 1 [] 5 [] [ROp.addOp 7 []] (by decide)

/-- The rolling ledger after the concrete scenario of claim C1: max_nodes 3,
then adds of the fingerprints of a, b, c with the stated parent links. -/
def c1_state : RollingChronicleStore :=
  ((((RollingChronicleStore.init 3).add (tx_fingerprint "a") [tx_fingerprint "ROOT"]).2.add
      (tx_fingerprint "b") [tx_fingerprint "a"]).2.add
      (tx_fingerprint "c") [tx_fingerprint "b"]).2

/-- Claim C1 (counterexample): after the scenario the resident size is 4, not
at most 3 - the root anchor is exempt from eviction, which leaves one item of
slack above max_nodes = 3. -/
theorem c1_scenario_size_counterexample :
    c1_state.parents.length = 4 ∧ ¬ (c1_state.parents.length ≤ 3) := by
  have h : c1_state.parents.length = 4 := by decide
  exact ⟨h, by omega⟩

/-- Claim C1 (amended): after the scenario the resident size is 4 (that is,
max_nodes + 1, using the root-anchor slack), the root anchor is still
resident, and the tip list is exactly the fingerprint of c. -/
theorem c1_scenario_amended :
    c1_state.parents.length = 4 ∧ (alookup c1_state.parents root_key).isSome ∧
    c1_state.tips = [tx_fingerprint "c"] := by
  refine ⟨by decide, by decide, by decide⟩

/-- Claim C3 (counterexample): for the router with 2 shards and replication 1
and the key "shard_0:0" - whose hash is exactly a ring key - the code (using
bisect_right, strictly greater) routes to shard_1, while the claimed
first-key-greater-or-EQUAL rule picks shard_0. -/
theorem c3_route_ge_counterexample :
    (ShardManager.init 2 1).get_shard_for_transaction "shard_0:0" = some "shard_1" ∧
    routeFirstGE (ShardManager.init 2 1) "shard_0:0" = some "shard_0" ∧
    (ShardManager.init 2 1).get_shard_for_transaction "shard_0:0"
      ≠ routeFirstGE (ShardManager.init 2 1) "shard_0:0" := by
  have h1 : (ShardManager.init 2 1).get_shard_for_transaction "shard_0:0"
      = some "shard_1" := by decide
  have h2 : routeFirstGE (ShardManager.init 2 1) "shard_0:0" = some "shard_0" := by decide
  refine ⟨h1, h2, ?_⟩
  rw [h1, h2]
  simp

/-- Claim C4 (counterexample): with threshold 0, the proof for tx "t", the
empty vector and validator "v" verifies as (true, "ok"); mutating its score
to the different value 1/10^9 - equal at 6-decimal precision - still verifies
as (true, "ok"), not (false, "bad_proof") as the claim requires for every
changed score. -/
theorem c4_score_mutation_counterexample :
    verify 0 (make_proof 64 "t" [] "v") = (true, "ok") ∧
    (1 / 1000000000 : ℚ) ≠ (make_proof 64 "t" [] "v").score ∧
    verify 0 { make_proof 64 "t" [] "v" with score := 1 / 1000000000 } = (true, "ok") ∧
    verify 0 { make_proof 64 "t" [] "v" with score := 1 / 1000000000 }
      ≠ (false, "bad_proof") := by
  have h3 : verify 0 { make_proof 64 "t" [] "v" with score := 1 / 1000000000 }
      = (true, "ok") := by decide!
  refine ⟨by decide!, by decide!, h3, ?_⟩
  rw [h3]
  simp

/-- Claim C4 (amended): verify(makeProof(tx, vector, validator)) returns
(true, "ok") whenever the score clears the threshold in absolute value. For
an accepted proof object: changing the proof-hash field to any different
value yields (false, "bad_proof"); changing the score, txId, or validatorId
yields (false, "bad_proof") whenever the recomputed payload hashes to
something other than the stored proof (any change of txId or validatorId
changes the payload, and any score change that alters its 6-decimal
rendering does; only a SHA-256 collision could mask it); but a score change
that PRESERVES the 6-decimal rendering leaves the payload unchanged, and
verify still returns (true, "ok") when the new score clears the threshold -
two scores equal at 6-decimal precision are indistinguishable to verify. -/
theorem c4_proof_scheme_amended :
    ∀ (dim : Nat) (thr : ℚ) (tx val : String) (vec : List ℚ),
      (thr ≤ |(make_proof dim tx vec val).score| →
        verify thr (make_proof dim tx vec val) = (true, "ok")) ∧
      (∀ q, q ≠ (make_proof dim tx vec val).proof →
        verify thr { make_proof dim tx vec val with proof := q } = (false, "bad_proof")) ∧
      (∀ s, sha256Hex (poiPayload val tx s) ≠ (make_proof dim tx vec val).proof →
        verify thr { make_proof dim tx vec val with score := s } = (false, "bad_proof")) ∧
      (∀ tx2, sha256Hex (poiPayload val tx2 (make_proof dim tx vec val).score)
          ≠ (make_proof dim tx vec val).proof →
        verify thr { make_proof dim tx vec val with tx_id := tx2 }
          = (false, "bad_proof")) ∧
      (∀ val2, sha256Hex (poiPayload val2 tx (make_proof dim tx vec val).score)
          ≠ (make_proof dim tx vec val).proof →
        verify thr { make_proof dim tx vec val with validator_id := val2 }
          = (false, "bad_proof")) ∧
      (∀ s, fmt6 s = fmt6 (make_proof dim tx vec val).score → thr ≤ |s| →
        verify thr { make_proof dim tx vec val with score := s } = (true, "ok")) := by
  intro dim thr tx val vec
  refine ⟨?_, ?_, ?_, ?_, ?_, ?_⟩
  · intro h
    exact verify_make dim thr tx vec val h
  · intro q hq
    exact verify_mismatch thr _ (Ne.symm hq)
  · intro s hs
    exact verify_mismatch thr _ hs
  · intro tx2 h
    exact verify_mismatch thr _ h
  · intro val2 h
    exact verify_mismatch thr _ h
  · intro s hf hs
    exact verify_same_fmt dim thr tx val vec s hf hs

theorem c4_proof_scheme_witness :
    verify 0 (make_proof 64 "t" [] "v") = (true, "ok") ∧
    verify 0 { make_proof 64 "t" [] "v" with proof := "00" } = (false, "bad_proof") ∧
    verify 0 { make_proof 64 "t" [] "v" with score := 1 } = (false, "bad_proof") ∧
    verify 0 { make_proof 64 "t" [] "v" with tx_id := "u" } = (false, "bad_proof") ∧
    verify 0 { make_proof 64 "t" [] "v" with validator_id := "w" }
      = (false, "bad_proof") ∧
    verify 0 { make_proof 64 "t" [] "v" with score := 1 / 1000000000 } = (true, "ok") :=
  ⟨(c4_proof_scheme_amended 64 0 "t" "v" []).1 (by decide!),
   (c4_proof_scheme_amended 64 0 "t" "v" []).2.1 "00" (by decide!),
   (c4_proof_scheme_amended 64 0 "t" "v" []).2.2.1 1 (by decide!),
   (c4_proof_scheme_amended 64 0 "t" "v" []).2.2.2.1 "u" (by decide!),
   (c4_proof_scheme_amended 64 0 "t" "v" []).2.2.2.2.1 "w" (by decide!),
   (c4_proof_scheme_amended 64 0 "t" "v" []).2.2.2.2.2 (1 / 1000000000)
     (by decide!) (by decide!)⟩
